import Mathlib

/-!
Verification of the declarative-configuration transform pipeline of the
`continuous-delivery-tools` repository (`cmd/copy-toolchain.js`,
`cmd/utils/terraform.js`, `cmd/utils/utils.js`, `cmd/utils/validate.js`,
`config.js`).

The parsed Terraform/JSON documents that the pipeline manipulates are
modelled by the inductive type `Value` below (a JavaScript-style JSON
value, including `undefined`, since the source code relies on
`undefined` propagation and on property access throwing on
`null`/`undefined`).  Each pass of the pipeline is translated into a
Lean function over `Value`; operations that can throw a `TypeError` in
JavaScript return `Except String _`.
-/

namespace CdTools

/-- A JavaScript value as it appears in the parsed `.tf`-JSON documents:
`null`, `undefined`, strings, booleans, integers, arrays and objects
(objects are association lists with unique keys, in insertion order). -/
inductive Value : Type where
  | vnull : Value
  | undef : Value
  | str : String → Value
  | boolean : Bool → Value
  | num : Int → Value
  | list : List Value → Value
  | obj : List (String × Value) → Value

namespace Value

/-- First-match lookup in an object's field list (JavaScript objects have
unique keys; the model reads the first occurrence). -/
def lookupF : List (String × Value) → String → Option Value
  | [], _ => none
  | (k', v) :: rest, k => if k' = k then some v else lookupF rest k

/-- JavaScript property read `v[k]`: throws a `TypeError` on `null` and
`undefined`, returns the field (or `undefined`) on objects, supports the
numeric index `0` on arrays (the only index the source uses), and yields
`undefined` on the remaining primitives. -/
def jsGet : Value → String → Except String Value
  | .vnull, _ => .error "TypeError: cannot read properties of null"
  | .undef, _ => .error "TypeError: cannot read properties of undefined"
  | .obj fs, k =>
    match lookupF fs k with
    | some v => .ok v
    | none => .ok .undef
  | .list xs, k =>
    if k = "0" then
      match xs with
      | [] => .ok .undef
      | x :: _ => .ok x
    else .ok .undef
  | .str _, _ => .ok .undef
  | .boolean _, _ => .ok .undef
  | .num _, _ => .ok Value.undef

/-- Chained property access `v[k1][k2]...`, with JavaScript throwing
semantics. -/
def getPath (v : Value) : List String → Except String Value
  | [] => .ok v
  | k :: ks => do
    let w ← jsGet v k
    getPath w ks

/-- JavaScript truthiness: `null`, `undefined`, `false`, `""` and `0`
are falsy; everything else (including `[]` and binary objects) is truthy. -/
def truthy : Value → Bool
  | .vnull => false
  | .undef => false
  | .boolean b => b
  | .str s => s ≠ ""
  | .num n => n ≠ 0
  | .list _ => true
  | .obj _ => true

/-- `delete m[k]` on an object; a no-op on every other value. -/
def removeField : Value → String → Value
  | .obj fs, k => .obj (fs.filter (fun e => e.1 ≠ k))
  | v, _ => v

/-- JavaScript assignment `m[k] = w`: overwrites the first occurrence of
the key, or appends the key at the end; a no-op on non-objects (property
writes on primitives are silently lost / throw and are never reached in
the modelled code paths). -/
def setFieldF : List (String × Value) → String → Value → List (String × Value)
  | [], k, w => [(k, w)]
  | (k', v) :: rest, k, w =>
    if k' = k then (k', w) :: rest else (k', v) :: setFieldF rest k w

def setField : Value → String → Value → Value
  | .obj fs, k, w => .obj (setFieldF fs k w)
  | v, _, _ => v

/-- `Object.keys(v).length`: throws on `null`/`undefined`; field count
for objects, element count for arrays, character count for strings, `0`
for the remaining primitives. -/
def jsKeysLen : Value → Except String Nat
  | .vnull => .error "TypeError: Object.keys called on null"
  | .undef => .error "TypeError: Object.keys called on undefined"
  | .obj fs => .ok fs.length
  | .list xs => .ok xs.length
  | .str s => .ok s.length
  | .boolean _ => .ok 0
  | .num _ => .ok 0

/-- Update the first field with the given key (or leave the list
unchanged when the key is absent); mirrors `lookupF`'s first-match
reads, as a functional account of in-place mutation at a property.
`updatePath` is the write-back along a full property path, mirroring
`getPath`'s addressing, and leaving the value unchanged where the path
does not apply. -/
def updateFirstF : List (String × Value) → String → (Value → Value) → List (String × Value)
  | [], _, _ => []
  | (k', v) :: rest, k, g =>
    if k' = k then (k', g v) :: rest else (k', v) :: updateFirstF rest k g

def updatePath : Value → List String → (Value → Value) → Value
  | v, [], f => f v
  | .obj fs, k :: ks, f => .obj (updateFirstF fs k (fun w => updatePath w ks f))
  | .list xs, k :: ks, f =>
    if k = "0" then
      match xs with
      | [] => .list []
      | x :: rest => .list (updatePath x ks f :: rest)
    else .list xs
  | v, _ :: _, _ => v

/-- Is this value JavaScript `null`? -/
def isNull : Value → Bool
  | .vnull => true
  | _ => false

/-- Total node count of a value; used to separate concrete values. -/
def nodes : Value → Nat
  | .vnull | .undef | .str _ | .boolean _ | .num _ => 1
  | .list xs => 1 + nodesList xs
  | .obj fs => 1 + nodesFields fs
where
  nodesList : List Value → Nat
    | [] => 0
    | x :: xs => nodes x + nodesList xs
  nodesFields : List (String × Value) → Nat
    | [] => 0
    | (_, v) :: fs => nodes v + nodesFields fs

end Value

/-! ### Per-resource attribute-map normalization

Translation of the post-processing that `importTerraform`
(`cmd/utils/import-terraform.js`, the loop over
`generatedFileJson['resource']`) applies to each resource body `v`
coming out of the HCL→JSON codec, where every body arrives wrapped in a
one-element array:

* collapse the wrapper: `newTfFileObj['resource'][key][k] = v[0]`;
* `try { if (Object.keys(…['source'][0]['properties'][0]['tool'][0]).length < 1)
  delete …['tool'] } catch {}` (empty `tool` blocks break `jsonToTf`);
* `try { if (…['worker'][0]['id'] === null) delete …['worker'] } catch {}`;
* drop every top-level field whose value is `null`
  (`Object.entries(v[0])`, which throws when `v[0]` is
  `null`/`undefined` — this statement is *not* inside a `try`);
* `try`-guarded null-drops inside `parameters[0]` and inside
  `source[0].properties[0]`, each preceded by an `Object.keys(…).length > 0`
  test.
-/

/-- Is the value a JavaScript primitive (compared by value in a `Set`)? -/
def isPrimJS : Value → Bool
  | .vnull | .undef | .str _ | .boolean _ | .num _ => true
  | .list _ | .obj _ => false

/-- Remove `null`-valued entries, as the `delete` loops do: object
fields are removed, array slots become holes (read back as
`undefined`); primitives have no `null`-valued entries. -/
def stripNullsIn : Value → Value
  | .obj fs => .obj (fs.filter (fun e => !e.2.isNull))
  | .list xs => .list (xs.map (fun x => if x.isNull then .undef else x))
  | v => v

/-- Path of the `tool` block's parent object. -/
def toolParentPath : List String := ["source", "0", "properties", "0"]

/-- Path of `parameters[0]`. -/
def paramsPath : List String := ["parameters", "0"]

/-- Does `Object.keys(m.source[0].properties[0].tool[0]).length < 1`
evaluate to `true` (exceptions falling to the `catch` count as `false`)? -/
def emptyToolTrig (m : Value) : Bool :=
  match (m.getPath (toolParentPath ++ ["tool", "0"])).bind Value.jsKeysLen with
  | .ok n => n < 1
  | .error _ => false

/-- `delete …['source'][0]['properties'][0]['tool']` when the block is
empty. -/
def delEmptyTool (m : Value) : Value :=
  if emptyToolTrig m then m.updatePath toolParentPath (fun p => p.removeField "tool") else m

/-- Does `m.worker[0].id === null` evaluate to `true` (exceptions count
as `false`)? -/
def workerNullTrig (m : Value) : Bool :=
  match m.getPath ["worker", "0", "id"] with
  | .ok .vnull => true
  | _ => false

/-- `delete …['worker']` when `worker[0].id` is `null`. -/
def delNullWorker (m : Value) : Value :=
  if workerNullTrig m then m.removeField "worker" else m

/-- The unguarded top-level null strip: `Object.entries(v[0])` throws on
`null`/`undefined`. -/
def stripTop : Value → Except String Value
  | .vnull => .error "TypeError: Object.entries called on null"
  | .undef => .error "TypeError: Object.entries called on undefined"
  | v => .ok (stripNullsIn v)

/-- Does `Object.keys(valueAt m path).length > 0` evaluate to `true`
(exceptions falling to the `catch` count as `false`)? -/
def stripAtTrig (m : Value) (path : List String) : Bool :=
  match (m.getPath path).bind Value.jsKeysLen with
  | .ok n => 0 < n
  | .error _ => false

/-- The `try`-guarded null strip inside the value at `path`. -/
def stripAt (m : Value) (path : List String) : Value :=
  if stripAtTrig m path then m.updatePath path stripNullsIn else m

/-- Full per-resource normalization of one body `v` (which the codec
delivers as a one-element array): collapse the wrapper, apply the two
block workarounds, then the three null strips, in source order. -/
def normalizeBody (v : Value) : Except String Value :=
  match v.jsGet "0" with
  | .error e => .error e
  | .ok m0 =>
    match stripTop (delNullWorker (delEmptyTool m0)) with
    | .error e => .error e
    | .ok m3 => .ok (stripAt (stripAt m3 paramsPath) toolParentPath)

/-- A parsed document: resource type → (local name → body). -/
abbrev TfDoc := List (String × List (String × Value))

/-- Normalize the bodies of one resource type in order; the first
exception aborts the run. -/
def normalizeResList : List (String × Value) →
    Except String (List (String × Value))
  | [] => .ok []
  | (n, b) :: rest =>
    match normalizeBody b with
    | .error e => .error e
    | .ok b' =>
      match normalizeResList rest with
      | .error e => .error e
      | .ok rest' => .ok ((n, b') :: rest')

/-- Document-level normalization: each resource body is normalized
independently (an exception in any body aborts `importTerraform`). -/
def normalizeDoc : TfDoc → Except String TfDoc
  | [] => .ok []
  | (ty, rs) :: rest =>
    match normalizeResList rs with
    | .error e => .error e
    | .ok rs' =>
      match normalizeDoc rest with
      | .error e => .error e
      | .ok rest' => .ok ((ty, rs') :: rest')

/-- Re-wrap every body in the one-element array the HCL→JSON codec
produces, as happens when a generated file is serialized and re-parsed. -/
def rewrapDoc (doc : TfDoc) : TfDoc :=
  doc.map (fun tr => (tr.1, tr.2.map (fun r => (r.1, Value.list [r.2]))))

/-- Is the value `null` or `undefined`?  (The two values property access
throws on.) -/
def Value.isNU : Value → Bool
  | .vnull => true
  | .undef => true
  | _ => false

/-- `delete arr[i]` / field removal turns a `null` into an `undefined`
hole (arrays) or drops it (objects); this is the per-value effect. -/
def nullToUndef (w : Value) : Value :=
  if w.isNull then .undef else w

/-- No immediate entry of the value is `null` (what a completed null
strip guarantees at one level). -/
def noTopNulls : Value → Prop
  | .obj fs => ∀ e ∈ fs, e.2.isNull = false
  | .list xs => ∀ x ∈ xs, x.isNull = false
  | _ => True

/-- JavaScript-representability: every object in the tree has pairwise
distinct keys.  Parsed JSON/HCL documents always satisfy this; the
association-list model would otherwise admit shadowed keys that no
JavaScript object can have. -/
def Value.wfKeys : Value → Bool
  | .obj fs => decide ((fs.map Prod.fst).Nodup) && wfFields fs
  | .list xs => wfElems xs
  | _ => true
where
  wfFields : List (String × Value) → Bool
    | [] => true
    | (_, v) :: fs => Value.wfKeys v && wfFields fs
  wfElems : List Value → Bool
    | [] => true
    | x :: xs => Value.wfKeys x && wfElems xs

/-- Well-formedness of a whole document. -/
def wfDoc (doc : TfDoc) : Bool :=
  doc.all (fun tr => tr.2.all (fun r => r.2.wfKeys))

/-! ### Legacy-integration dependency injection (C2)

Translation of the two identical `depends_on` blocks of
`setupTerraformFiles` (`cmd/utils/terraform.js`, the
`ibm_cd_tekton_pipeline_trigger` block and the
`ibm_cd_tekton_pipeline_definition` block):

```
try {
  const thisUrl = v['source'][0]['properties'][0]['url'];
  if (!v['depends_on'] && thisUrl) {
    …[k]['depends_on'] = [`ibm_cd_toolchain_tool_githubconsolidated.${repoToTfName[thisUrl]}`]
  }
} catch { /* do nothing */ }
```
-/

/-- One trigger/definition resource body under the legacy-GHE
`depends_on` injection.  `repoToTfName` is the url → converted-resource
local-name map built from the `github_integrated` tools. -/
def injectLegacyDep (repoToTfName : String → Option String) (v : Value) : Value :=
  match v.getPath ["source", "0", "properties", "0", "url"] with
  | .error _ => v   -- the `catch`: do nothing
  | .ok u =>
    match v.jsGet "depends_on" with
    | .error _ => v
    | .ok dep =>
      if !dep.truthy && u.truthy then
        -- a url absent from the map interpolates as the string "undefined"
        let tfName := match u with
          | .str s => (repoToTfName s).getD "undefined"
          | _ => "undefined"
        v.setField "depends_on"
          (.list [.str ("ibm_cd_toolchain_tool_githubconsolidated." ++ tfName)])
      else v

/-! ### Toolchain tag override (C9)

Translation of the tag branch of the `ibm_cd_toolchain` block of
`setupTerraformFiles` (`cmd/utils/terraform.js`):

```
if (targetTag) …['tags'] = [
  Array.from(new Set(
    (…['tags'] ?? []).concat([targetTag])
  ))
];
```
-/

/-- JavaScript `Set` element equality (SameValueZero): primitives
compare by value; two array/object *literals* are distinct references
and never compare equal. -/
def primEqJS : Value → Value → Bool
  | .str a, .str b => a = b
  | .num a, .num b => a = b
  | .boolean a, .boolean b => a = b
  | .vnull, .vnull => true
  | .undef, .undef => true
  | _, _ => false

/-- `Array.from(new Set(l))`: keep the first occurrence of each element,
in insertion order, under SameValueZero equality. -/
def dedupJS (l : List Value) : List Value := go [] l
where go (seen : List Value) : List Value → List Value
  | [] => []
  | x :: xs => if seen.any (fun y => primEqJS y x) then go seen xs else x :: go (x :: seen) xs

/-- Apply the target-tag override to the toolchain resource body.  The
existing `tags` field is read with `?? []`; it is a JSON array whenever
present in a parsed document (a non-array value is modelled as a
one-element collection). -/
def addTargetTag (targetTag : String) (body : Value) : Value :=
  let cur := match body.jsGet "tags" with
    | .ok w => w
    | .error _ => .vnull   -- unreachable: the body is an object
  let existing : List Value := match cur with
    | .list xs => xs
    | .vnull => []
    | .undef => []
    | w => [w]
  body.setField "tags" (.list [.list (dedupJS (existing ++ [.str targetTag]))])

/-! ### Legacy GHE → githubconsolidated conversion (C5)

Translation of the `moreTfResources['github_integrated'].forEach`
synthesis in `setupTerraformFiles` (`cmd/utils/terraform.js`):

```
newConvertedTf[tfName] = {
  toolchain_id: `${ibm_cd_toolchain.${newTcId}.id}`,
  name: t['name'],
  initialization: [{ auto_init: 'false', blind_connection: 'false',
    git_id: 'integrated', private_repo: 'false', repo_url: gitUrl, type: 'link' }],
  parameters: [{
    ...(t['parameters']['auth_type'] === 'pat' ? { api_token: t['parameters']['api_token'] } : {}),
    auth_type: …, enable_traceability: …, integration_owner: …,
    toolchain_issues_enabled: t['parameters']['has_issues'],
  }]
};
```
-/

/-- A legacy `github_integrated` tool as returned by the tools API. -/
structure GheTool where
  id : String
  name : String
  parameters : List (String × Value)

/-- Read a tool parameter (`undefined` when absent). -/
def paramOf (t : GheTool) (k : String) : Value :=
  (Value.lookupF t.parameters k).getD Value.undef

/-- `t['parameters']['auth_type'] === 'pat'` (strict equality against a
string literal). -/
def authTypeIsPat (t : GheTool) : Bool :=
  match paramOf t "auth_type" with
  | .str s => s = "pat"
  | _ => false

/-- The `parameters[0]` object of the synthesized `githubconsolidated`
resource: the conditional spread contributes `api_token` first, then the
four unconditional fields. -/
def convertGheParams (t : GheTool) : List (String × Value) :=
  (if authTypeIsPat t then [("api_token", paramOf t "api_token")] else []) ++
  [("auth_type", paramOf t "auth_type"),
   ("enable_traceability", paramOf t "enable_traceability"),
   ("integration_owner", paramOf t "integration_owner"),
   ("toolchain_issues_enabled", paramOf t "has_issues")]

/-- The whole synthesized resource body. -/
def convertGheResource (newTcId : String) (t : GheTool) : Value :=
  .obj [
    ("toolchain_id", .str ("$\x7bibm_cd_toolchain." ++ newTcId ++ ".id\x7d")),
    ("name", .str t.name),
    ("initialization", .list [.obj [
      ("auto_init", .str "false"),
      ("blind_connection", .str "false"),
      ("git_id", .str "integrated"),
      ("private_repo", .str "false"),
      ("repo_url", paramOf t "repo_url"),
      ("type", .str "link")]]),
    ("parameters", .list [.obj (convertGheParams t)])]

/-! ### Local-name generation (C7)

Translation of `normalizeName` (`cmd/utils/utils.js`) and `importBlock`
(`cmd/utils/import-terraform.js`):

```
export function normalizeName(str) {
    const specialChars = `-<>()*#{}[]|@_ .%'",&`;
    let newStr = str;
    for (const char of specialChars) {
        newStr = newStr.replaceAll(char, '_');
    }
    return newStr.toLowerCase();
};

function importBlock(id, name, resourceType) {
    const newName = `${normalizeName(name)}_${getRandChars(4)}`;
    …
}
```

`replaceAll` with a single-character pattern is a character-wise map.
Case folding is modelled for ASCII (`Char.toLower`); the special
characters are all ASCII so the order replace-then-lowercase is
preserved. -/

/-- The fixed special-character set `-<>()*#{}[]|@_ .%'",&` (21
characters; the braces are written via their code points). -/
def specialChars : List Char :=
  ['-', '<', '>', '(', ')', '*', '#', Char.ofNat 123, Char.ofNat 125,
   '[', ']', '|', '@', '_', ' ', '.', '%', '\'', '\"', ',', '&']

/-- `str.replaceAll(c, '_')` for a one-character pattern. -/
def replaceAllChar (c : Char) (l : List Char) : List Char :=
  l.map (fun x => if x = c then '_' else x)

/-- `normalizeName` on the character list: one `replaceAll` per special
character, then `toLowerCase`. -/
def normalizeNameL (l : List Char) : List Char :=
  (specialChars.foldl (fun acc c => replaceAllChar c acc) l).map Char.toLower

def normalizeName (s : String) : String :=
  ⟨normalizeNameL s.data⟩

/-- The synthetic local name of an import block:
`normalizeName(humanName) + "_" + random4CharSuffix` (the random suffix
is passed in as data). -/
def importLocalName (humanName suffix : String) : String :=
  normalizeName humanName ++ "_" ++ suffix

/-- Character-wise description of `normalizeName`: special characters
become an underscore, everything else is lowercased. -/
def normChar (c : Char) : Char :=
  if c ∈ specialChars then '_' else c.toLower

/-- The character class `[a-z0-9_-]` that the specification asserts for
generated names. -/
def specAllowedChar (c : Char) : Bool :=
  (('a' ≤ c ∧ c ≤ 'z') ∨ ('0' ≤ c ∧ c ≤ '9') ∨ c = '_' ∨ c = '-' : Prop)

/-! ### GRIT url validation, syntactic part (C8)

Translation of `validateGritUrl` (`cmd/utils/validate.js`) up to the
live API calls, together with the reserved-name lists of `config.js`.
The regular expressions are single character-class / adjacency checks
and are translated character-wise; `pattern1`/`pattern1alt` are tested
first and exclude every character (in particular newlines) that could
change the meaning of `^`/`$`/`.` in the later patterns. -/

def RESERVED_GRIT_PROJECT_NAMES : List String :=
  ["\\-", "badges", "blame", "blob", "builds", "commits", "create",
   "create_dir", "edit", "environments/folders", "files", "find_file",
   "gitlab-lfs/objects", "info/lfs/objects", "new", "preview", "raw",
   "refs", "tree", "update", "wikis"]

def RESERVED_GRIT_GROUP_NAMES : List String :=
  ["\\-", ".well-known", "404.html", "422.html", "500.html", "502.html",
   "503.html", "admin", "api", "apple-touch-icon.png", "assets",
   "dashboard", "deploy.html", "explore", "favicon.ico", "favicon.png",
   "files", "groups", "health_check", "help", "import", "jwt", "login",
   "oauth", "profile", "projects", "public", "robots.txt", "s",
   "search", "sitemap", "sitemap.xml", "sitemap.xml.gz",
   "slash-command-logo.png", "snippets", "unsubscribes", "uploads",
   "users", "v2"]

def RESERVED_GRIT_SUBGROUP_NAME : String := "\\-"

/-- Split a character list at every occurrence of one character
(`String.prototype.split` with a single-character separator). -/
def splitChar (c : Char) : List Char → List (List Char)
  | [] => [[]]
  | x :: xs =>
    let r := splitChar c xs
    if x = c then [] :: r
    else
      match r with
      | [] => [[x]]
      | t :: ts => (x :: t) :: ts

/-- `s.startsWith(p)`, computed on the character lists. -/
def strStartsWith (s p : String) : Bool := p.data.isPrefixOf s.data

/-- `s.endsWith(p)`, computed on the character lists. -/
def strEndsWith (s p : String) : Bool := p.data.isSuffixOf s.data

/-- `s.trim()` (the inputs the validator sees never rely on exotic
whitespace, so `Char.isWhitespace` stands in for the JS definition). -/
def strTrim (s : String) : String :=
  ⟨((s.data.dropWhile Char.isWhitespace).reverse.dropWhile
      Char.isWhitespace).reverse⟩

/-- `[a-zA-Z0-9]` -/
def isAlnumAscii (c : Char) : Bool :=
  ('a' ≤ c ∧ c ≤ 'z') ∨ ('A' ≤ c ∧ c ≤ 'Z') ∨ ('0' ≤ c ∧ c ≤ '9')

/-- `pattern1` character class `[a-zA-Z0-9-._]`. -/
def gritNameChar (c : Char) : Bool :=
  isAlnumAscii c ∨ c = '-' ∨ c = '.' ∨ c = '_'

/-- `pattern1alt` character class `[a-zA-Z0-9-._\/]`. -/
def gritPathChar (c : Char) : Bool :=
  gritNameChar c ∨ c = '/'

/-- `pattern4` character class `[-._\/]` (special characters that must
not appear twice in a row). -/
def gritSpecialChar (c : Char) : Bool :=
  c = '-' ∨ c = '.' ∨ c = '_' ∨ c = '/'

/-- `pattern4`: the string contains two or more consecutive special
characters. -/
def hasConsecSpecial (s : String) : Bool :=
  (s.data.zip s.data.tail).any (fun p => gritSpecialChar p.1 ∧ gritSpecialChar p.2)

/-- `pattern2`/`pattern3`: starts/ends with `[a-zA-Z0-9]`. -/
def startsAlnum (s : String) : Bool :=
  match s.data with
  | [] => false
  | c :: _ => isAlnumAscii c

def endsAlnum (s : String) : Bool :=
  match s.data.getLast? with
  | none => false
  | some c => isAlnumAscii c

/-- The purely syntactic prefix of `validateGritUrl` applied to the
already-trimmed repository path (everything before
`const accessToken = await getGitOAuth(…)`).  Returns the path when all
checks pass, the thrown error message otherwise. -/
def gritSyntaxCheck (trimmed : String) : Except String String := do
  let urlSplit := splitChar '/' trimmed.data
  if urlSplit.length < 2 then
    throw "Provided GRIT url is invalid (missing forward-slash)"
  let projectName : String := ⟨urlSplit.getLastD []⟩
  let urlStart : String :=
    ⟨trimmed.data.take (trimmed.length - projectName.length - 1)⟩
  if RESERVED_GRIT_PROJECT_NAMES.contains projectName then
    throw "Provided GRIT url invalid (contains reserved name)"
  if RESERVED_GRIT_GROUP_NAMES.contains urlStart then
    throw "Provided GRIT url invalid (contains reserved name)"
  if RESERVED_GRIT_SUBGROUP_NAME.data <:+: urlStart.data then
    throw "Provided GRIT url invalid (contains reserved name)"
  if !(projectName.data.all gritNameChar ∧ projectName.length ≤ 255) then
    throw "Provided project contains illegal character(s)"
  if !startsAlnum projectName then
    throw "Provided project does not start with an alphanumeric character"
  if !endsAlnum projectName then
    throw "Provided project does not end with an alphanumeric character"
  if hasConsecSpecial projectName then
    throw "Provided project contains consecutive special characters"
  if !(urlStart.data.all gritPathChar ∧ urlStart.length ≤ 255) then
    throw "Provided user/group contains illegal character(s)"
  if !startsAlnum urlStart then
    throw "Provided user/group does not start with an alphanumeric character"
  if !endsAlnum urlStart then
    throw "Provided user/group does not end with an alphanumeric character"
  if hasConsecSpecial urlStart then
    throw "Provided user/group contains consecutive special characters"
  -- `if (projectName.endsWith('.git') && !projectName.endsWith('.atom')) throw …`
  if strEndsWith projectName ".git" ∧ !(strEndsWith projectName ".atom") then
    throw "Provided GRIT url contains .git or .atom suffix"
  return trimmed

/-- `validateGritUrl`'s entry: in full mode the url must carry the
region prefix and the `.git` suffix, both of which are stripped;
otherwise the input is trimmed. -/
def validateGritUrlSyntax (region url : String) (validateFull : Bool) :
    Except String String :=
  if validateFull then
    if !(strStartsWith url ("https://" ++ region ++ ".git.cloud.ibm.com/")
          ∧ strEndsWith url ".git") then
      .error "Provided full GRIT url is not valid"
    else
      let rest := url.data.drop ("https://" ++ region ++ ".git.cloud.ibm.com/").length
      gritSyntaxCheck ⟨rest.take (rest.length - ".git".length)⟩
  else
    gritSyntaxCheck (strTrim url)

/-- The complete `validateGritUrl` as a boolean, with the live
user/group project-existence lookup abstracted as `existsOracle` on the
validated path: this is how callers use
`validateGritUrl(…).catch(() => false)`. -/
def validateGritFullB (region : String) (existsOracle : String → Bool)
    (url : String) : Bool :=
  match validateGritUrlSyntax region url true with
  | .ok t => existsOracle t
  | .error _ => false

/-! ### GRIT mapping-file validation (C3)

Translation of the `options.gritMappingFile` block of `main`
(`cmd/copy-toolchain.js`): each value of the mapping is validated with
`validateGritUrl(bearer, targetRegion, v, true)`; every rejection
increments `errorCount` (the first five are logged); after the
`Promise.all` barrier, `if (errorCount > 0) throw Error(…)`. -/

/-- The final `errorCount`: one per entry whose value fails
`validateGritUrl` (syntax or existence). -/
def gritMappingErrorCount (entries : List (String × String))
    (validate : String → Bool) : Nat :=
  entries.foldl (fun cnt e => if validate e.2 then cnt else cnt + 1) 0

/-- Does the mapping-file validation throw? -/
def gritMappingCheckFails (entries : List (String × String))
    (validate : String → Bool) : Bool :=
  0 < gritMappingErrorCount entries validate

/-! ### URL region substitution and GRIT remediation (C4, C10)

Translation of `replaceUrlRegion` (`cmd/utils/utils.js`) and of the
per-resource GRIT remediation of the `ibm_cd_toolchain_tool_hostedgit`
block of `setupTerraformFiles` (`cmd/utils/terraform.js`).

`new URL(s)` is modelled for the absolute `scheme://host/path` urls the
migration handles; strings without a scheme separator (or with an empty
scheme or host) fail to parse, and the `catch` returns `''`. -/

/-- Parse `scheme://host/path`; `none` models the `URL` constructor
throwing. -/
def parseUrlParts (s : String) : Option (String × String × String) :=
  let scheme := s.data.takeWhile (fun c => c ≠ ':')
  let rest0 := s.data.drop scheme.length
  if scheme ≠ [] ∧ scheme.all Char.isAlpha ∧ rest0.take 3 = [':', '/', '/'] then
    let rest := rest0.drop 3
    let host := rest.takeWhile (fun c => c ≠ '/')
    let path := rest.drop host.length
    if host = [] then none else some (⟨scheme⟩, ⟨host⟩, ⟨path⟩)
  else none

/-- `replaceUrlRegion(inputUrl, srcRegion, targetRegion)`: empty input
returns `''`; a parse failure returns `''`; otherwise every hostname
label equal to `srcRegion` is replaced by `targetRegion` and the url is
reserialized (`toString` prints at least a `/` path). -/
def replaceUrlRegion (inputUrl srcRegion targetRegion : String) : String :=
  if inputUrl = "" then ""
  else
    match parseUrlParts inputUrl with
    | none => ""
    | some (scheme, host, path) =>
      let labels : List String := (splitChar '.' host.data).map (fun l => ⟨l⟩)
      let host' := String.intercalate "."
        (labels.map (fun i => if i = srcRegion then targetRegion else i))
      scheme ++ "://" ++ host' ++ (if path = "" then "/" else path)

/-- First-match association lookup (`thisUrl in gritMapping` /
`gritMapping[thisUrl]`). -/
def lookupS (m : List (String × String)) (k : String) : Option String :=
  match m with
  | [] => none
  | (k', v) :: rest => if k' = k then some v else lookupS rest k

/-- The mutable remediation state: the GRIT url mapping and the
`usedGritUrls` set (initialized from `Object.values(gritMapping)`). -/
structure GritState where
  mapping : List (String × String)
  used : List String

/-- Outcome of remediating one hosted-git resource. -/
structure GritStepResult where
  url : String         -- final `initialization[0].repo_url` value
  state : GritState
  prompted : Bool      -- control fell through to the interactive prompt
  errored : Bool       -- the per-resource `catch` was hit

/-- One iteration of the hosted-git remediation loop, up to (but not
including) the operator's interactive answer:
1. a mapping hit substitutes the mapped value and moves on;
2. otherwise the region-substituted candidate is accepted when
   `skipUserConfirmation` is set, or when it is nonempty, not yet used,
   and passes `validateGritUrl` (existence abstracted by the oracle);
   the field is assigned before `attemptAddUsedGritUrl`, which throws
   into the per-resource `catch` when the url was already used;
3. otherwise control falls through to the interactive prompt (the field
   is unchanged unless the operator later supplies a url). -/
def remediateGritUrl (srcRegion targetRegion : String)
    (existsOracle : String → Bool) (skipUserConfirmation : Bool)
    (st : GritState) (thisUrl : String) : GritStepResult :=
  match lookupS st.mapping thisUrl with
  | some mapped => ⟨mapped, st, false, false⟩
  | none =>
    let newUrl := replaceUrlRegion thisUrl srcRegion targetRegion
    if skipUserConfirmation
        ∨ (newUrl ≠ "" ∧ !(st.used.contains newUrl)
            ∧ validateGritFullB targetRegion existsOracle newUrl) then
      if st.used.contains newUrl then
        ⟨newUrl, st, false, true⟩
      else
        ⟨newUrl,
         { mapping := st.mapping ++ [(thisUrl, newUrl)],
           used := st.used ++ [newUrl] },
         false, false⟩
    else
      ⟨thisUrl, st, true, false⟩

/-! ### Import-directive generation (C1)

Translation of the import-block construction of `importTerraform`
(`cmd/utils/import-terraform.js`, step 1): one block for the toolchain,
then for each tool (in API order) one block when its type is in
`SUPPORTED_TOOLS_MAP`, and for a tekton pipeline the pipeline block,
its definitions, its pipeline properties, and its triggers each
followed by that trigger's properties.  Only the external id and the
resource type matter for the ordering claim; the random local names are
modelled by `importLocalName` above. -/

structure ImportDirective where
  externalId : String
  resourceType : String
  deriving DecidableEq

structure TriggerProp where
  name : String
  deriving DecidableEq

structure PipelineTrigger where
  id : String
  name : String
  properties : List TriggerProp
  deriving DecidableEq

structure PipelineDefinition where
  id : String
  deriving DecidableEq

structure PipelineProperty where
  name : String
  deriving DecidableEq

/-- The pipeline graph returned by `getPipelineData`. -/
structure PipelineData where
  id : String
  definitions : List PipelineDefinition
  properties : List PipelineProperty
  triggers : List PipelineTrigger
  deriving DecidableEq

/-- A tool binding; `pipeline` carries the graph `getPipelineData`
fetches for `pipeline`-typed tools. -/
structure ToolBinding where
  id : String
  tool_type_id : String
  paramType : Option String
  pipeline : Option PipelineData
  deriving DecidableEq

/-- `SUPPORTED_TOOLS_MAP` from `config.js`. -/
def SUPPORTED_TOOLS_MAP : List (String × String) :=
  [("appconfig", "ibm_cd_toolchain_tool_appconfig"),
   ("artifactory", "ibm_cd_toolchain_tool_artifactory"),
   ("bitbucketgit", "ibm_cd_toolchain_tool_bitbucketgit"),
   ("private_worker", "ibm_cd_toolchain_tool_privateworker"),
   ("draservicebroker", "ibm_cd_toolchain_tool_devopsinsights"),
   ("eventnotifications", "ibm_cd_toolchain_tool_eventnotifications"),
   ("hostedgit", "ibm_cd_toolchain_tool_hostedgit"),
   ("githubconsolidated", "ibm_cd_toolchain_tool_githubconsolidated"),
   ("cloudobjectstorage", "ibm_cd_toolchain_tool_cos"),
   ("gitlab", "ibm_cd_toolchain_tool_gitlab"),
   ("hashicorpvault", "ibm_cd_toolchain_tool_hashicorpvault"),
   ("jenkins", "ibm_cd_toolchain_tool_jenkins"),
   ("jira", "ibm_cd_toolchain_tool_jira"),
   ("keyprotect", "ibm_cd_toolchain_tool_keyprotect"),
   ("nexus", "ibm_cd_toolchain_tool_nexus"),
   ("customtool", "ibm_cd_toolchain_tool_custom"),
   ("pagerduty", "ibm_cd_toolchain_tool_pagerduty"),
   ("saucelabs", "ibm_cd_toolchain_tool_saucelabs"),
   ("secretsmanager", "ibm_cd_toolchain_tool_secretsmanager"),
   ("security_compliance", "ibm_cd_toolchain_tool_securitycompliance"),
   ("slack", "ibm_cd_toolchain_tool_slack"),
   ("sonarqube", "ibm_cd_toolchain_tool_sonarqube"),
   ("pipeline", "ibm_cd_toolchain_tool_pipeline")]

/-- The directive for one trigger followed by its properties (external
ids are composed from the parent ids). -/
def triggerDirectives (pd : PipelineData) (tr : PipelineTrigger) :
    List ImportDirective :=
  ⟨pd.id ++ "/" ++ tr.id, "ibm_cd_tekton_pipeline_trigger"⟩ ::
  tr.properties.map
    (fun p => ⟨pd.id ++ "/" ++ tr.id ++ "/" ++ p.name,
               "ibm_cd_tekton_pipeline_trigger_property"⟩)

/-- The pipeline directive then definitions, properties, and the
trigger sections. -/
def pipelineDirectives (pd : PipelineData) : List ImportDirective :=
  ⟨pd.id, "ibm_cd_tekton_pipeline"⟩ ::
  (pd.definitions.map
     (fun d => ⟨pd.id ++ "/" ++ d.id, "ibm_cd_tekton_pipeline_definition"⟩) ++
   pd.properties.map
     (fun p => ⟨pd.id ++ "/" ++ p.name, "ibm_cd_tekton_pipeline_property"⟩) ++
   pd.triggers.flatMap (triggerDirectives pd))

/-- The blocks pushed while processing one tool of the `for…of` loop:
the supported-tool block, then the tekton pipeline section. -/
def toolDirectives (toolchainId : String) (t : ToolBinding) :
    List ImportDirective :=
  (match lookupS SUPPORTED_TOOLS_MAP t.tool_type_id with
   | some rt => [⟨toolchainId ++ "/" ++ t.id, rt⟩]
   | none => []) ++
  (if t.tool_type_id = "pipeline" ∧ t.paramType = some "tekton" then
     match t.pipeline with
     | some pd => pipelineDirectives pd
     | none => []
   else [])

/-- The whole `importBlocks` array in push order. -/
def importTerraformDirectives (toolchainId : String)
    (tools : List ToolBinding) : List ImportDirective :=
  ⟨toolchainId, "ibm_cd_toolchain"⟩ ::
  tools.flatMap (toolDirectives toolchainId)

/-- `x` occurs in `L`, `y` occurs in `L`, and every occurrence of `x`
is strictly before every occurrence of `y`. -/
def OccursBefore (L : List ImportDirective) (x y : ImportDirective) : Prop :=
  (∃ (i : Nat), L[i]? = some x) ∧ (∃ (j : Nat), L[j]? = some y) ∧
  ∀ (i j : Nat), L[i]? = some x → L[j]? = some y → i < j

/-! ## Theorems -/

/-- C4: for the hosted-git url `https://ca-tor.git.cloud.ibm.com/team/proj.git`
with `sourceRegion="ca-tor"`, `targetRegion="eu-gb"`, no mapping entry and a
passing existence check, the remediation rewrites the url to
`https://eu-gb.git.cloud.ibm.com/team/proj.git` (only the hostname label
equal to the source region changes; path and `.git` suffix are intact),
records the old-to-new pair in the mapping, and marks the new url used. -/
theorem grit_rewrite_scenario_a :
    replaceUrlRegion "https://ca-tor.git.cloud.ibm.com/team/proj.git" "ca-tor" "eu-gb"
      = "https://eu-gb.git.cloud.ibm.com/team/proj.git"
    ∧ (remediateGritUrl "ca-tor" "eu-gb" (fun _ => true) false ⟨[], []⟩
        "https://ca-tor.git.cloud.ibm.com/team/proj.git").url
      = "https://eu-gb.git.cloud.ibm.com/team/proj.git"
    ∧ (remediateGritUrl "ca-tor" "eu-gb" (fun _ => true) false ⟨[], []⟩
        "https://ca-tor.git.cloud.ibm.com/team/proj.git").state.mapping
      = [("https://ca-tor.git.cloud.ibm.com/team/proj.git",
          "https://eu-gb.git.cloud.ibm.com/team/proj.git")]
    ∧ (remediateGritUrl "ca-tor" "eu-gb" (fun _ => true) false ⟨[], []⟩
        "https://ca-tor.git.cloud.ibm.com/team/proj.git").state.used
      = ["https://eu-gb.git.cloud.ibm.com/team/proj.git"]
    ∧ (remediateGritUrl "ca-tor" "eu-gb" (fun _ => true) false ⟨[], []⟩
        "https://ca-tor.git.cloud.ibm.com/team/proj.git").prompted = false :=
  ⟨rfl, rfl, rfl, rfl, rfl⟩

/-- C8 (failing input): the syntactic part of `validateGritUrl` rejects a
project name ending in `.git`, but *accepts* `group/proj.atom` — the
`endsWith('.git') && !endsWith('.atom')` condition can never fire for an
`.atom` suffix, contradicting the comment `// cannot end with .git or .atom`
and the error message right next to it. -/
theorem validateGritUrl_atom_not_rejected :
    gritSyntaxCheck "group/proj.git"
      = .error "Provided GRIT url contains .git or .atom suffix"
    ∧ gritSyntaxCheck "group/proj.atom" = .ok "group/proj.atom"
    ∧ validateGritUrlSyntax "eu-gb"
        "https://eu-gb.git.cloud.ibm.com/group/proj.atom.git" true
      = .ok "group/proj.atom" :=
  ⟨rfl, rfl, rfl⟩

/-- C3 (counterexample): a mapping file whose two distinct keys map to the
same individually well-formed target url passes validation with an error
count of `0` — no injectivity check exists, contradicting the claimed hard
error with count `1`. -/
theorem gritMapping_duplicate_target_not_rejected :
    gritMappingErrorCount
      [("https://ca-tor.git.cloud.ibm.com/a/b.git",
        "https://eu-gb.git.cloud.ibm.com/a/b.git"),
       ("https://ca-tor.git.cloud.ibm.com/c/d.git",
        "https://eu-gb.git.cloud.ibm.com/a/b.git")]
      (validateGritFullB "eu-gb" (fun _ => true)) = 0
    ∧ gritMappingCheckFails
      [("https://ca-tor.git.cloud.ibm.com/a/b.git",
        "https://eu-gb.git.cloud.ibm.com/a/b.git"),
       ("https://ca-tor.git.cloud.ibm.com/c/d.git",
        "https://eu-gb.git.cloud.ibm.com/a/b.git")]
      (validateGritFullB "eu-gb" (fun _ => true)) = false
    ∧ validateGritFullB "eu-gb" (fun _ => true)
        "https://eu-gb.git.cloud.ibm.com/a/b.git" = true :=
  ⟨rfl, rfl, rfl⟩

/-- C3 (amended): the mapping-file validation checks each entry's value
independently — the error count equals the number of entries whose value
fails `validateGritUrl`, and the validation throws exactly when that count
is positive; no comparison between values (injectivity) is performed, so
duplicate-target entries with valid urls contribute no errors. -/
theorem gritMapping_errorCount_characterization
    (entries : List (String × String)) (validate : String → Bool) :
    gritMappingErrorCount entries validate
      = (entries.filter (fun e => !validate e.2)).length
    ∧ (gritMappingCheckFails entries validate = true
        ↔ ∃ e ∈ entries, validate e.2 = false) := by
  have hgen : ∀ (l : List (String × String)) (init : Nat),
      l.foldl (fun cnt e => if validate e.2 then cnt else cnt + 1) init
        = init + (l.filter (fun e => !validate e.2)).length := by
    intro l
    induction l with
    | nil => intro init; simp
    | cons e rest ih =>
      intro init
      by_cases h : validate e.2 <;> simp [h, ih, Nat.add_assoc, Nat.add_comm 1]
  have hcount : gritMappingErrorCount entries validate
      = (entries.filter (fun e => !validate e.2)).length := by
    simpa using hgen entries 0
  refine ⟨hcount, ?_⟩
  have hiff : gritMappingCheckFails entries validate = true
      ↔ 0 < (entries.filter (fun e => !validate e.2)).length := by
    simp [gritMappingCheckFails, hcount]
  rw [hiff]
  constructor
  · intro h
    obtain ⟨e, he⟩ := List.exists_mem_of_length_pos h
    have hm := List.mem_filter.mp he
    exact ⟨e, hm.1, by simpa using hm.2⟩
  · rintro ⟨e, he, hv⟩
    exact List.length_pos_of_mem
      (List.mem_filter.mpr ⟨he, by simp [hv]⟩)

/-- C10 (counterexample): with `--force` (`skipUserConfirmation = true`),
an unparseable repository url is *not* handed to the interactive prompt —
the empty candidate produced by `replaceUrlRegion` is written into the
field and recorded in the mapping, because `skipUserConfirmation`
short-circuits the `newUrl &&` guard. -/
theorem remediate_force_overwrites_with_empty :
    (remediateGritUrl "ca-tor" "eu-gb" (fun _ => true) true ⟨[], []⟩
        "notaurl").url = ""
    ∧ (remediateGritUrl "ca-tor" "eu-gb" (fun _ => true) true ⟨[], []⟩
        "notaurl").prompted = false
    ∧ (remediateGritUrl "ca-tor" "eu-gb" (fun _ => true) true ⟨[], []⟩
        "notaurl").state.mapping = [("notaurl", "")]
    ∧ replaceUrlRegion "notaurl" "ca-tor" "eu-gb" = "" :=
  ⟨rfl, rfl, rfl, rfl⟩

/-- C10 (amended): `replaceUrlRegion` is total and returns the empty
string (not its input) on empty or unparseable input, and — when user
confirmation is *not* skipped — the remediation loop treats the empty
candidate as "no candidate": it falls through to the interactive prompt
and leaves the field and the mapping state unchanged.  (Under `--force`
the field is overwritten with the empty candidate instead, per the
counterexample.) -/
theorem replaceUrlRegion_empty_falls_to_prompt
    (srcRegion targetRegion thisUrl : String) (oracle : String → Bool)
    (st : GritState)
    (hfail : thisUrl = "" ∨ parseUrlParts thisUrl = none)
    (hnomap : lookupS st.mapping thisUrl = none) :
    replaceUrlRegion thisUrl srcRegion targetRegion = ""
    ∧ (remediateGritUrl srcRegion targetRegion oracle false st thisUrl).prompted
        = true
    ∧ (remediateGritUrl srcRegion targetRegion oracle false st thisUrl).url
        = thisUrl
    ∧ (remediateGritUrl srcRegion targetRegion oracle false st thisUrl).state
        = st := by
  have hempty : replaceUrlRegion thisUrl srcRegion targetRegion = "" := by
    rcases hfail with h | h
    · simp [replaceUrlRegion, h]
    · by_cases he : thisUrl = ""
      · simp [replaceUrlRegion, he]
      · simp [replaceUrlRegion, he, h]
  refine ⟨hempty, ?_, ?_, ?_⟩ <;>
    simp [remediateGritUrl, hnomap, hempty]

/-- C10 witness: the amended theorem at the concrete unparseable input
`"notaurl"` with an empty state. -/
theorem replaceUrlRegion_empty_falls_to_prompt_witness :
    replaceUrlRegion "notaurl" "ca-tor" "eu-gb" = ""
    ∧ (remediateGritUrl "ca-tor" "eu-gb" (fun _ => true) false ⟨[], []⟩
        "notaurl").prompted = true
    ∧ (remediateGritUrl "ca-tor" "eu-gb" (fun _ => true) false ⟨[], []⟩
        "notaurl").url = "notaurl"
    ∧ (remediateGritUrl "ca-tor" "eu-gb" (fun _ => true) false ⟨[], []⟩
        "notaurl").state = ⟨[], []⟩ :=
  replaceUrlRegion_empty_falls_to_prompt "ca-tor" "eu-gb" "notaurl"
    (fun _ => true) ⟨[], []⟩ (Or.inr rfl) rfl

/-- C7 (counterexample): `normalizeName` does not strip characters
outside `[a-z0-9_-]` — `+` is not in the replaced special set and
survives, so the generated local name `a+b_wxyz` contains a character
outside the claimed class. -/
theorem importLocalName_keeps_plus :
    importLocalName "a+b" "wxyz" = "a+b_wxyz"
    ∧ '+' ∈ "a+b_wxyz".data
    ∧ specAllowedChar '+' = false :=
  ⟨rfl, by decide, rfl⟩

/-- C7 (amended): every generated local name is
`normalizeName(humanName) + "_" + suffix`, where `normalizeName` maps
each character of the fixed special set `-<>()*#{}[]|@_ .%'",&` to an
underscore and lowercases every other character — it does *not* strip
characters outside `[a-z0-9_-]`, which are preserved (lowercased). -/
theorem importLocalName_characterization (name suffix : String) :
    (importLocalName name suffix).data
      = name.data.map normChar ++ '_' :: suffix.data
    ∧ normalizeName name = ⟨name.data.map normChar⟩ := by
  have hfold : ∀ (cs : List Char) (l : List Char),
      cs.foldl (fun acc c => replaceAllChar c acc) l
        = l.map (fun x => if x ∈ cs then '_' else x) := by
    intro cs
    induction cs with
    | nil => intro l; simp
    | cons c cs ih =>
      intro l
      rw [List.foldl_cons, show replaceAllChar c l
          = l.map (fun x => if x = c then '_' else x) from rfl, ih,
        List.map_map]
      refine List.map_congr_left ?_
      intro x _
      by_cases hx : x = c
      · subst hx
        by_cases h' : ('_' : Char) ∈ cs <;> simp [h']
      · simp [hx, List.mem_cons]
  have hnorm : ∀ (l : List Char), normalizeNameL l = l.map normChar := by
    intro l
    rw [normalizeNameL, hfold, List.map_map]
    refine List.map_congr_left ?_
    intro x _
    by_cases hx : x ∈ specialChars
    · simp [normChar, hx]
    · simp [normChar, hx]
  constructor
  · simp only [importLocalName]
    rw [String.data_append, String.data_append]
    simp only [normalizeName]
    rw [hnorm]
    simp
  · simp only [normalizeName]
    rw [hnorm]

/-- C5: in the legacy `github_integrated` → `githubconsolidated`
synthesis, `api_token` appears among the new resource's parameters
exactly when the legacy tool's `auth_type` is `'pat'` (and then carries
the legacy token value), while `auth_type`, the traceability flag, the
integration owner and the issue-tracking flag (from `has_issues`) are
carried over for every converted tool. -/
theorem ghe_conversion_secret_asymmetry (newTcId : String) (t : GheTool) :
    (Value.lookupF (convertGheParams t) "api_token"
      = if authTypeIsPat t then some (paramOf t "api_token") else none)
    ∧ Value.lookupF (convertGheParams t) "auth_type"
        = some (paramOf t "auth_type")
    ∧ Value.lookupF (convertGheParams t) "enable_traceability"
        = some (paramOf t "enable_traceability")
    ∧ Value.lookupF (convertGheParams t) "integration_owner"
        = some (paramOf t "integration_owner")
    ∧ Value.lookupF (convertGheParams t) "toolchain_issues_enabled"
        = some (paramOf t "has_issues")
    ∧ (convertGheResource newTcId t).jsGet "parameters"
        = .ok (.list [.obj (convertGheParams t)]) := by
  by_cases hp : authTypeIsPat t <;>
    simp [convertGheParams, hp, Value.lookupF, convertGheResource, Value.jsGet]

/-- C2: the legacy-integration dependency-injection pass never touches a
resource whose `depends_on` field holds a truthy value (in particular a
non-empty list), and whenever the pass changes a resource at all, that
resource's `depends_on` read produced a falsy value (absent —
`undefined` — or `null`-like): an edge is injected only where none
exists. -/
theorem injectLegacyDep_frame (repoToTfName : String → Option String)
    (v : Value) :
    (∀ dep, v.jsGet "depends_on" = .ok dep → dep.truthy = true →
      injectLegacyDep repoToTfName v = v)
    ∧ (injectLegacyDep repoToTfName v ≠ v →
      ∃ dep, v.jsGet "depends_on" = .ok dep ∧ dep.truthy = false) := by
  constructor
  · intro dep hdep htr
    unfold injectLegacyDep
    cases h1 : v.getPath ["source", "0", "properties", "0", "url"] with
    | error e => rfl
    | ok u => simp [hdep, htr]
  · intro hne
    unfold injectLegacyDep at hne
    cases h1 : v.getPath ["source", "0", "properties", "0", "url"] with
    | error e => rw [h1] at hne; exact absurd rfl hne
    | ok u =>
      rw [h1] at hne
      cases h2 : v.jsGet "depends_on" with
      | error e => rw [h2] at hne; exact absurd rfl hne
      | ok dep =>
        rw [h2] at hne
        refine ⟨dep, rfl, ?_⟩
        by_cases htr : dep.truthy
        · simp [htr] at hne
        · simpa using htr

/-- C2 witness: a trigger resource with the non-empty dependency edge
`["edge"]` is left unchanged by the injection pass. -/
theorem injectLegacyDep_frame_witness :
    injectLegacyDep (fun _ => some "converted--githubconsolidated_ab12")
      (.obj [("depends_on", .list [.str "edge"]),
             ("source", .list [.obj [("properties",
               .list [.obj [("url", .str "https://u")]])]])])
    = .obj [("depends_on", .list [.str "edge"]),
            ("source", .list [.obj [("properties",
              .list [.obj [("url", .str "https://u")]])]])] :=
  (injectLegacyDep_frame (fun _ => some "converted--githubconsolidated_ab12")
    _).1 (.list [.str "edge"]) rfl rfl

/-- `primEqJS` really is an equality test: it only answers `true` on
equal values. -/
theorem primEqJS_eq {a b : Value} (h : primEqJS a b = true) : a = b := by
  cases a <;> cases b <;> simp [primEqJS] at h <;> simp [h]

/-- A primitive compares equal to itself under SameValueZero. -/
theorem primEqJS_self {a : Value} (h : isPrimJS a = true) :
    primEqJS a a = true := by
  cases a <;> simp [primEqJS] <;> simp [isPrimJS] at h

/-- Membership through `dedupJS.go`: an element survives iff it occurs
in the input and no already-seen element equals it. -/
theorem mem_dedupJS_go (l : List Value) :
    ∀ (seen : List Value) (x : Value),
      x ∈ dedupJS.go seen l
        ↔ (x ∈ l ∧ ∀ y ∈ seen, primEqJS y x = false) := by
  induction l with
  | nil => intro seen x; simp [dedupJS.go]
  | cons a l ih =>
    intro seen x
    by_cases hskip : seen.any (fun y => primEqJS y a)
    · rw [dedupJS.go, if_pos hskip, ih]
      constructor
      · rintro ⟨hmem, hcond⟩
        exact ⟨List.mem_cons_of_mem _ hmem, hcond⟩
      · rintro ⟨hmem, hcond⟩
        rcases List.mem_cons.mp hmem with rfl | hmem
        · obtain ⟨y, hy, hpy⟩ := List.any_eq_true.mp hskip
          have := hcond y hy
          rw [this] at hpy
          exact absurd hpy (by simp)
        · exact ⟨hmem, hcond⟩
    · rw [dedupJS.go, if_neg hskip]
      constructor
      · intro hmem
        rcases List.mem_cons.mp hmem with rfl | hmem
        · refine ⟨List.mem_cons_self _ _, ?_⟩
          intro y hy
          by_contra hcontra
          exact hskip (List.any_eq_true.mpr
            ⟨y, hy, by simpa using hcontra⟩)
        · have := (ih (a :: seen) x).mp hmem
          exact ⟨List.mem_cons_of_mem _ this.1,
            fun y hy => this.2 y (List.mem_cons_of_mem _ hy)⟩
      · rintro ⟨hmem, hcond⟩
        rcases List.mem_cons.mp hmem with rfl | hmem
        · exact List.mem_cons_self _ _
        · by_cases hax : primEqJS a x
          · rw [primEqJS_eq hax]
            exact List.mem_cons_self _ _
          · refine List.mem_cons_of_mem _ ((ih (a :: seen) x).mpr
              ⟨hmem, ?_⟩)
            intro y hy
            rcases List.mem_cons.mp hy with rfl | hy
            · simpa using hax
            · exact hcond y hy

/-- `Array.from(new Set(l))` preserves membership. -/
theorem mem_dedupJS (l : List Value) (x : Value) :
    x ∈ dedupJS l ↔ x ∈ l := by
  rw [dedupJS, mem_dedupJS_go]
  simp

/-- On a list of primitives, `Array.from(new Set(l))` has no
duplicates. -/
theorem nodup_dedupJS (l : List Value) (h : ∀ x ∈ l, isPrimJS x = true) :
    (dedupJS l).Nodup := by
  rw [dedupJS]
  have : ∀ (l' : List Value), (∀ x ∈ l', isPrimJS x = true) →
      ∀ (seen : List Value), (dedupJS.go seen l').Nodup := by
    intro l'
    induction l' with
    | nil => intro _ seen; simp [dedupJS.go]
    | cons a l' ih =>
      intro hp seen
      by_cases hskip : seen.any (fun y => primEqJS y a)
      · rw [dedupJS.go, if_pos hskip]
        exact ih (fun x hx => hp x (List.mem_cons_of_mem _ hx)) seen
      · rw [dedupJS.go, if_neg hskip]
        refine List.nodup_cons.mpr ⟨?_, ih
          (fun x hx => hp x (List.mem_cons_of_mem _ hx)) (a :: seen)⟩
        intro hmem
        have := (mem_dedupJS_go l' (a :: seen) a).mp hmem
        have hself := this.2 a (List.mem_cons_self _ _)
        rw [primEqJS_self (hp a (List.mem_cons_self _ _))] at hself
        exact absurd hself (by simp)
  exact this l h []

/-- `lookupF` after `setFieldF` at the written key. -/
theorem lookupF_setFieldF_self (fs : List (String × Value)) (k : String)
    (w : Value) : Value.lookupF (Value.setFieldF fs k w) k = some w := by
  induction fs with
  | nil => simp [Value.setFieldF, Value.lookupF]
  | cons e fs ih =>
    by_cases hk : e.1 = k
    · simp [Value.setFieldF, hk, Value.lookupF]
    · simpa [Value.setFieldF, hk, Value.lookupF] using ih

/-- C9 (counterexample): the tag pass is not idempotent.  On a toolchain
body with `tags = ["a"]`, one application produces
`tags = [["a","t"]]`; a second application treats the wrapped list as a
single (reference-compared) element and re-appends the tag, producing
`tags = [[["a","t"],"t"]]`. -/
theorem addTargetTag_not_idempotent :
    addTargetTag "t" (addTargetTag "t"
        (.obj [("tags", .list [.str "a"])]))
      ≠ addTargetTag "t" (.obj [("tags", .list [.str "a"])]) := by
  intro h
  have h2 := congrArg Value.nodes h
  rw [show Value.nodes (addTargetTag "t" (addTargetTag "t"
      (.obj [("tags", .list [.str "a"])]))) = 7 from rfl,
    show Value.nodes (addTargetTag "t"
      (.obj [("tags", .list [.str "a"])])) = 5 from rfl] at h2
  exact absurd h2 (by decide)

/-- C9 (amended): on a toolchain body whose `tags` field is a list of
string tags (or absent), the pass *appends* rather than replaces: the
new `tags` value is the singleton-wrapped list of the existing tags plus
the target tag, de-duplicated by value equality — every existing tag is
kept, the target tag is present, and no tag appears twice.  The pass is
not idempotent on its own output (see the counterexample): the wrapped
result is re-appended as one element by a second run. -/
theorem addTargetTag_appends_dedup (tag : String)
    (fs : List (String × Value)) (xs : List Value)
    (hread : Value.lookupF fs "tags" = some (.list xs)
      ∨ (Value.lookupF fs "tags" = none ∧ xs = []))
    (hstr : ∀ x ∈ xs, ∃ s, x = Value.str s) :
    (addTargetTag tag (.obj fs)).jsGet "tags"
        = .ok (.list [.list (dedupJS (xs ++ [.str tag]))])
    ∧ (∀ w, w ∈ dedupJS (xs ++ [.str tag]) ↔ (w ∈ xs ∨ w = .str tag))
    ∧ (dedupJS (xs ++ [.str tag])).Nodup := by
  refine ⟨?_, ?_, ?_⟩
  · have hcur : (addTargetTag tag (.obj fs))
        = (Value.obj fs).setField "tags"
            (.list [.list (dedupJS (xs ++ [.str tag]))]) := by
      rcases hread with h | ⟨h, rfl⟩ <;>
        simp [addTargetTag, Value.jsGet, h]
    rw [hcur]
    simp [Value.setField, Value.jsGet, lookupF_setFieldF_self]
  · intro w
    rw [mem_dedupJS]
    simp
  · refine nodup_dedupJS _ ?_
    intro x hx
    rcases List.mem_append.mp hx with hx | hx
    · obtain ⟨s, rfl⟩ := hstr x hx
      rfl
    · simp at hx
      subst hx
      rfl

/-! ### Helper lemmas for the normalization development (C6):
path/update algebra, null-strip effects, key well-formedness, trigger
transport, and the re-run invariance of `normalizeBody`/`normalizeDoc`. -/

namespace Value

theorem lookupF_filter_ne {fs : List (String × Value)} {k w : String}
    (hkw : k ≠ w) :
    lookupF (fs.filter (fun e => e.1 ≠ w)) k = lookupF fs k := by
  induction fs with
  | nil => rfl
  | cons e fs ih =>
    rw [List.filter_cons]
    by_cases hw : e.1 = w
    · rw [if_neg (by simp [hw])]
      rw [ih, lookupF, if_neg (fun h => hkw (by rw [← h, hw]))]
    · rw [if_pos (by simp [hw])]
      rw [lookupF, lookupF]
      by_cases hk : e.1 = k
      · rw [if_pos hk, if_pos hk]
      · rw [if_neg hk, if_neg hk, ih]

theorem jsGet_removeField {x : Value} {k w : String} (hkw : k ≠ w) :
    (x.removeField w).jsGet k = x.jsGet k := by
  cases x <;> try rfl
  show (match lookupF (List.filter (fun e => e.1 ≠ w) _) k with
    | some v => Except.ok v
    | none => Except.ok Value.undef) = _
  rw [lookupF_filter_ne hkw]
  rfl

theorem getPath_removeField {x : Value} {k w : String} {ks : List String}
    (hkw : k ≠ w) :
    (x.removeField w).getPath (k :: ks) = x.getPath (k :: ks) := by
  show ((x.removeField w).jsGet k).bind _ = (x.jsGet k).bind _
  rw [jsGet_removeField hkw]

theorem getPath_append (x : Value) (p q : List String) :
    x.getPath (p ++ q) = (x.getPath p).bind (fun w => w.getPath q) := by
  induction p generalizing x with
  | nil => rfl
  | cons k ks ih =>
    show (x.jsGet k).bind _ = ((x.jsGet k).bind _).bind _
    cases x.jsGet k with
    | error e => rfl
    | ok w => exact ih w

theorem lookupF_updateFirstF_self {fs : List (String × Value)}
    {k : String} {v : Value} (g : Value → Value)
    (h : lookupF fs k = some v) :
    lookupF (updateFirstF fs k g) k = some (g v) := by
  induction fs with
  | nil => simp [lookupF] at h
  | cons e fs ih =>
    by_cases hk : e.1 = k
    · rw [lookupF, if_pos hk] at h
      cases h
      rw [updateFirstF, if_pos hk, lookupF, if_pos hk]
    · rw [lookupF, if_neg hk] at h
      rw [updateFirstF, if_neg hk, lookupF, if_neg hk]
      exact ih h

theorem updateFirstF_of_none {fs : List (String × Value)} {k : String}
    (g : Value → Value) (h : lookupF fs k = none) :
    updateFirstF fs k g = fs := by
  induction fs with
  | nil => rfl
  | cons e fs ih =>
    by_cases hk : e.1 = k
    · rw [lookupF, if_pos hk] at h
      exact Option.noConfusion h
    · rw [lookupF, if_neg hk] at h
      rw [updateFirstF, if_neg hk, ih h]

theorem lookupF_updateFirstF_ne {fs : List (String × Value)}
    {k k' : String} (g : Value → Value) (h : k' ≠ k) :
    lookupF (updateFirstF fs k g) k' = lookupF fs k' := by
  induction fs with
  | nil => rfl
  | cons e fs ih =>
    by_cases hk : e.1 = k
    · have hne : e.1 ≠ k' := by rw [hk]; exact fun hh => h hh.symm
      rw [updateFirstF, if_pos hk, lookupF, if_neg hne, lookupF, if_neg hne]
    · rw [updateFirstF, if_neg hk, lookupF, lookupF]
      by_cases hk' : e.1 = k'
      · rw [if_pos hk', if_pos hk']
      · rw [if_neg hk', if_neg hk', ih]

theorem updateFirstF_updateFirstF (fs : List (String × Value))
    (k : String) (g g' : Value → Value) :
    updateFirstF (updateFirstF fs k g) k g'
      = updateFirstF fs k (fun v => g' (g v)) := by
  induction fs with
  | nil => rfl
  | cons e fs ih =>
    by_cases hk : e.1 = k
    · rw [updateFirstF, if_pos hk, updateFirstF, if_pos hk,
        updateFirstF, if_pos hk]
    · rw [updateFirstF, if_neg hk, updateFirstF, if_neg hk,
        updateFirstF, if_neg hk, ih]

theorem updateFirstF_congr {fs : List (String × Value)} {k : String}
    {g g' : Value → Value} (h : ∀ v, g v = g' v) :
    updateFirstF fs k g = updateFirstF fs k g' := by
  induction fs with
  | nil => rfl
  | cons e fs ih =>
    by_cases hk : e.1 = k
    · rw [updateFirstF, if_pos hk, updateFirstF, if_pos hk, h]
    · rw [updateFirstF, if_neg hk, updateFirstF, if_neg hk, ih]

end Value

namespace Value

theorem jsGet_updatePath_ne {x : Value} {k hp : String}
    {ps : List String} (f : Value → Value) (h : k ≠ hp) :
    (x.updatePath (hp :: ps) f).jsGet k = x.jsGet k := by
  cases x with
  | obj fs =>
    show (match lookupF (updateFirstF fs hp _) k with
      | some v => Except.ok v
      | none => Except.ok Value.undef) = _
    rw [lookupF_updateFirstF_ne _ h]
    rfl
  | list xs =>
    by_cases h0 : hp = "0"
    · subst h0
      cases xs with
      | nil => simp [updatePath]
      | cons a rest => simp [updatePath, jsGet, h]
    · simp [updatePath, h0]
  | vnull => rfl
  | undef => rfl
  | str s => rfl
  | boolean b => rfl
  | num n => rfl

theorem getPath_updatePath_ne {x : Value} {hp hq : String}
    {ps qs : List String} (f : Value → Value) (h : hq ≠ hp) :
    (x.updatePath (hp :: ps) f).getPath (hq :: qs) = x.getPath (hq :: qs) := by
  show ((x.updatePath (hp :: ps) f).jsGet hq).bind _ = (x.jsGet hq).bind _
  rw [jsGet_updatePath_ne f h]

theorem getPath_updatePath_self {x v : Value} {p : List String}
    (f : Value → Value) (h : x.getPath p = .ok v) (hv : v ≠ .undef) :
    (x.updatePath p f).getPath p = .ok (f v) := by
  induction p generalizing x with
  | nil =>
    simp only [getPath] at h
    cases h
    simp only [updatePath, getPath]
  | cons k ks ih =>
    have hsplit : (x.jsGet k).bind (fun w => w.getPath ks) = .ok v := h
    cases hw : x.jsGet k with
    | error e => rw [hw] at hsplit; exact Except.noConfusion hsplit
    | ok w =>
      rw [hw] at hsplit
      simp only [Except.bind] at hsplit
      have hwu : w ≠ .undef := by
        intro hwe
        subst hwe
        cases ks with
        | nil =>
          simp only [getPath] at hsplit
          cases hsplit
          exact hv rfl
        | cons k' ks' => exact Except.noConfusion hsplit
      cases x with
      | vnull => exact Except.noConfusion hw
      | undef => exact Except.noConfusion hw
      | str s => exact absurd (Except.ok.inj hw).symm hwu
      | boolean b => exact absurd (Except.ok.inj hw).symm hwu
      | num n => exact absurd (Except.ok.inj hw).symm hwu
      | obj fs =>
        have hlk : lookupF fs k = some w := by
          have hm : (match lookupF fs k with
            | some v => Except.ok v
            | none => Except.ok Value.undef) = Except.ok w := hw
          cases hl : lookupF fs k with
          | none => rw [hl] at hm; exact absurd (Except.ok.inj hm).symm hwu
          | some w' => rw [hl] at hm; rw [Except.ok.inj hm]
        show ((Value.obj (updateFirstF fs k
          (fun y => y.updatePath ks f))).jsGet k).bind (fun y => y.getPath ks)
          = _
        have hget : (Value.obj (updateFirstF fs k
            (fun y => y.updatePath ks f))).jsGet k
            = .ok (w.updatePath ks f) := by
          show (match lookupF (updateFirstF fs k _) k with
            | some v => Except.ok v
            | none => Except.ok Value.undef) = _
          rw [lookupF_updateFirstF_self _ hlk]
        rw [hget]
        exact ih hsplit
      | list xs =>
        by_cases h0 : k = "0"
        · subst h0
          cases xs with
          | nil => exact absurd (Except.ok.inj hw).symm hwu
          | cons a rest =>
            have ha : a = w := by
              have hm : (if ("0" : String) = "0" then Except.ok a
                else Except.ok Value.undef) = Except.ok w := hw
              rw [if_pos rfl] at hm
              exact Except.ok.inj hm
            subst ha
            have hupd : (Value.list (a :: rest)).updatePath ("0" :: ks) f
                = Value.list (a.updatePath ks f :: rest) := by
              simp [updatePath]
            rw [hupd]
            show ((Value.list (a.updatePath ks f :: rest)).jsGet "0").bind
              (fun y => y.getPath ks) = _
            have hget : (Value.list (a.updatePath ks f :: rest)).jsGet "0"
                = .ok (a.updatePath ks f) := by
              simp [jsGet]
            rw [hget]
            exact ih hsplit
        · have hm : (if k = "0" then _ else Except.ok Value.undef)
              = Except.ok w := hw
          rw [if_neg h0] at hm
          exact absurd (Except.ok.inj hm).symm hwu

theorem updatePath_updatePath {x : Value} {p : List String}
    {f : Value → Value} (hf : ∀ w, f (f w) = f w) :
    (x.updatePath p f).updatePath p f = x.updatePath p f := by
  induction p generalizing x with
  | nil =>
    simp only [updatePath]
    exact hf x
  | cons k ks ih =>
    cases x with
    | obj fs =>
      show Value.obj (updateFirstF (updateFirstF fs k _) k _) = _
      rw [updateFirstF_updateFirstF]
      exact congrArg _ (updateFirstF_congr (fun v => ih))
    | list xs =>
      by_cases h0 : k = "0"
      · subst h0
        cases xs with
        | nil => simp [updatePath]
        | cons a rest => simp [updatePath, ih]
      · simp [updatePath, h0]
    | vnull => rfl
    | undef => rfl
    | str s => rfl
    | boolean b => rfl
    | num n => rfl

theorem updateFirstF_comm_ne {fs : List (String × Value)} {k k' : String}
    (g g' : Value → Value) (h : k ≠ k') :
    updateFirstF (updateFirstF fs k' g') k g
      = updateFirstF (updateFirstF fs k g) k' g' := by
  induction fs with
  | nil => rfl
  | cons e fs ih =>
    by_cases hk' : e.1 = k'
    · have hk : ¬(e.1 = k) := by rw [hk']; exact fun hh => h hh.symm
      rw [updateFirstF, if_pos hk', updateFirstF, if_neg hk,
        updateFirstF, if_neg hk, updateFirstF, if_pos hk']
    · by_cases hk : e.1 = k
      · rw [updateFirstF, if_neg hk', updateFirstF, if_pos hk,
          updateFirstF, if_pos hk, updateFirstF, if_neg hk']
      · rw [updateFirstF, if_neg hk', updateFirstF, if_neg hk,
          updateFirstF, if_neg hk, updateFirstF, if_neg hk', ih]

theorem updatePath_comm_ne {x : Value} {hp hq : String}
    {ps qs : List String} (f g : Value → Value) (h : hp ≠ hq) :
    (x.updatePath (hq :: qs) g).updatePath (hp :: ps) f
      = (x.updatePath (hp :: ps) f).updatePath (hq :: qs) g := by
  cases x with
  | obj fs =>
    show Value.obj (updateFirstF (updateFirstF fs hq _) hp _)
      = Value.obj (updateFirstF (updateFirstF fs hp _) hq _)
    rw [updateFirstF_comm_ne _ _ h]
  | list xs =>
    by_cases h0 : hq = "0"
    · subst h0
      have hp0 : ¬(hp = "0") := h
      cases xs with
      | nil => simp [updatePath, hp0]
      | cons a rest => simp [updatePath, hp0]
    · by_cases hp0 : hp = "0"
      · subst hp0
        cases xs with
        | nil => simp [updatePath, h0]
        | cons a rest => simp [updatePath, h0]
      · simp [updatePath, h0, hp0]
  | vnull => rfl
  | undef => rfl
  | str s => rfl
  | boolean b => rfl
  | num n => rfl

theorem updatePath_removeField_comm {x : Value} {hp w : String}
    {ps : List String} (f : Value → Value) (h : hp ≠ w) :
    (x.removeField w).updatePath (hp :: ps) f
      = (x.updatePath (hp :: ps) f).removeField w := by
  cases x with
  | obj fs =>
    show Value.obj (updateFirstF (fs.filter (fun e => e.1 ≠ w)) hp _)
      = Value.obj ((updateFirstF fs hp _).filter (fun e => e.1 ≠ w))
    congr 1
    induction fs with
    | nil => rfl
    | cons e fs ih =>
      by_cases hw : e.1 = w
      · have hne : ¬(e.1 = hp) := by rw [hw]; exact fun hh => h hh.symm
        rw [List.filter_cons, if_neg (by simp [hw]),
          updateFirstF, if_neg hne, List.filter_cons, if_neg (by simp [hw]),
          ih]
      · by_cases hhp : e.1 = hp
        · rw [List.filter_cons, if_pos (by simp [hw]),
            updateFirstF, if_pos hhp, updateFirstF, if_pos hhp,
            List.filter_cons, if_pos (by simp [hw])]
        · rw [List.filter_cons, if_pos (by simp [hw]),
            updateFirstF, if_neg hhp, updateFirstF, if_neg hhp,
            List.filter_cons, if_pos (by simp [hw]), ih]
  | list xs =>
    by_cases h0 : hp = "0" <;> cases xs <;>
      simp [removeField, updatePath, h0]
  | vnull => rfl
  | undef => rfl
  | str s => rfl
  | boolean b => rfl
  | num n => rfl

end Value

namespace Value

theorem stripNullsIn_idem (x : Value) :
    stripNullsIn (stripNullsIn x) = stripNullsIn x := by
  cases x with
  | obj fs =>
    show Value.obj (List.filter _ (List.filter _ fs)) = _
    rw [List.filter_filter]
    congr 1
    exact List.filter_congr (fun e _ => by cases e.2 <;> rfl)
  | list xs =>
    show Value.list (List.map _ (List.map _ xs)) = _
    rw [List.map_map]
    congr 1
    exact List.map_congr_left (fun y _ => by cases y <;> rfl)
  | vnull => rfl
  | undef => rfl
  | str s => rfl
  | boolean b => rfl
  | num n => rfl

theorem isNU_stripNullsIn (x : Value) :
    (stripNullsIn x).isNU = x.isNU := by
  cases x <;> rfl

theorem isNull_stripNullsIn (x : Value) :
    (stripNullsIn x).isNull = x.isNull := by
  cases x <;> rfl

theorem isNU_updatePath (x : Value) (k : String) (ks : List String)
    (f : Value → Value) :
    (x.updatePath (k :: ks) f).isNU = x.isNU := by
  cases x with
  | list xs => by_cases h0 : k = "0" <;> cases xs <;> simp [updatePath, h0, isNU]
  | _ => rfl

theorem isNull_updatePath {f : Value → Value}
    (hf : ∀ w, (f w).isNull = w.isNull) (x : Value) (p : List String) :
    (x.updatePath p f).isNull = x.isNull := by
  cases p with
  | nil => simp only [updatePath]; exact hf x
  | cons k ks =>
    cases x with
    | list xs => by_cases h0 : k = "0" <;> cases xs <;>
        simp [updatePath, h0, isNull]
    | _ => rfl

theorem noTopNulls_of_strip_self {z : Value} (h : noTopNulls z) :
    stripNullsIn z = z := by
  cases z with
  | obj fs =>
    show Value.obj (List.filter _ fs) = _
    rw [List.filter_eq_self.mpr (fun e he => by simp [h e he])]
  | list xs =>
    show Value.list (List.map _ xs) = _
    congr 1
    have : ∀ (ys : List Value), (∀ x ∈ ys, x.isNull = false) →
        ys.map (fun x => if x.isNull then Value.undef else x) = ys := by
      intro ys hys
      induction ys with
      | nil => rfl
      | cons a rest ih =>
        rw [List.map_cons, if_neg (by simp [hys a (List.mem_cons_self a rest)]),
          ih (fun x hx => hys x (List.mem_cons_of_mem a hx))]
    exact this xs h
  | vnull => rfl
  | undef => rfl
  | str s => rfl
  | boolean b => rfl
  | num n => rfl

end Value

namespace Value

theorem noTopNulls_stripNullsIn (x : Value) :
    noTopNulls (stripNullsIn x) := by
  cases x with
  | obj fs =>
    intro e he
    have := List.mem_filter.mp he
    simpa using this.2
  | list xs =>
    intro y hy
    obtain ⟨z, _, rfl⟩ := List.mem_map.mp hy
    cases z <;> rfl
  | vnull => trivial
  | undef => trivial
  | str s => trivial
  | boolean b => trivial
  | num n => trivial

theorem mem_updateFirstF {fs : List (String × Value)} {k : String}
    {g : Value → Value} {e : String × Value}
    (he : e ∈ updateFirstF fs k g) :
    e ∈ fs ∨ ∃ e' ∈ fs, e = (e'.1, g e'.2) := by
  induction fs with
  | nil => exact absurd he (List.not_mem_nil e)
  | cons a fs ih =>
    by_cases hk : a.1 = k
    · rw [updateFirstF, if_pos hk] at he
      rcases List.mem_cons.mp he with rfl | hmem
      · exact Or.inr ⟨a, List.mem_cons_self a fs, rfl⟩
      · exact Or.inl (List.mem_cons_of_mem a hmem)
    · rw [updateFirstF, if_neg hk] at he
      rcases List.mem_cons.mp he with rfl | hmem
      · exact Or.inl (List.mem_cons_self _ _)
      · rcases ih hmem with h1 | ⟨e', he', rfl⟩
        · exact Or.inl (List.mem_cons_of_mem a h1)
        · exact Or.inr ⟨e', List.mem_cons_of_mem a he', rfl⟩

theorem noTopNulls_updatePath {z : Value} {k : String} {ks : List String}
    {f : Value → Value} (hf : ∀ w, (f w).isNull = w.isNull)
    (h : noTopNulls z) : noTopNulls (z.updatePath (k :: ks) f) := by
  have hupd : ∀ (w : Value), (w.updatePath ks f).isNull = w.isNull :=
    fun w => isNull_updatePath hf w ks
  cases z with
  | obj fs =>
    intro e he
    rcases mem_updateFirstF he with h1 | ⟨e', he', rfl⟩
    · exact h e h1
    · rw [hupd]
      exact h e' he'
  | list xs =>
    simp only [updatePath]
    by_cases h0 : k = "0"
    · rw [if_pos h0]
      cases xs with
      | nil => intro y hy; exact absurd hy (List.not_mem_nil y)
      | cons a rest =>
        show noTopNulls (Value.list (a.updatePath ks f :: rest))
        intro y hy
        rcases List.mem_cons.mp hy with rfl | hmem
        · rw [hupd]
          exact h a (List.mem_cons_self a rest)
        · exact h y (List.mem_cons_of_mem a hmem)
    · rw [if_neg h0]
      exact h
  | vnull => trivial
  | undef => trivial
  | str s => trivial
  | boolean b => trivial
  | num n => trivial

theorem wfFields_all {fs : List (String × Value)} :
    wfKeys.wfFields fs = true ↔ ∀ e ∈ fs, wfKeys e.2 = true := by
  induction fs with
  | nil => simp [wfKeys.wfFields]
  | cons e fs ih =>
    rw [wfKeys.wfFields, Bool.and_eq_true, ih]
    constructor
    · rintro ⟨h1, h2⟩ e' he'
      rcases List.mem_cons.mp he' with rfl | hm
      · exact h1
      · exact h2 e' hm
    · intro hh
      exact ⟨hh e (List.mem_cons_self _ _),
        fun e' he' => hh e' (List.mem_cons_of_mem _ he')⟩

theorem wfElems_all {xs : List Value} :
    wfKeys.wfElems xs = true ↔ ∀ x ∈ xs, wfKeys x = true := by
  induction xs with
  | nil => simp [wfKeys.wfElems]
  | cons x xs ih =>
    rw [wfKeys.wfElems, Bool.and_eq_true, ih]
    constructor
    · rintro ⟨h1, h2⟩ x' hx'
      rcases List.mem_cons.mp hx' with rfl | hm
      · exact h1
      · exact h2 x' hm
    · intro hh
      exact ⟨hh x (List.mem_cons_self _ _),
        fun x' hx' => hh x' (List.mem_cons_of_mem _ hx')⟩

theorem wfKeys_obj_iff {fs : List (String × Value)} :
    (Value.obj fs).wfKeys = true
      ↔ (fs.map Prod.fst).Nodup ∧ ∀ e ∈ fs, wfKeys e.2 = true := by
  rw [wfKeys, Bool.and_eq_true, wfFields_all]
  simp

theorem wfKeys_list_iff {xs : List Value} :
    (Value.list xs).wfKeys = true ↔ ∀ x ∈ xs, wfKeys x = true := by
  rw [wfKeys]
  exact wfElems_all

theorem lookupF_mem {fs : List (String × Value)} {k : String} {v : Value}
    (h : lookupF fs k = some v) : (k, v) ∈ fs := by
  induction fs with
  | nil => exact Option.noConfusion h
  | cons e fs ih =>
    by_cases hk : e.1 = k
    · rw [lookupF, if_pos hk] at h
      have hv : e.2 = v := Option.some.inj h
      rw [← hv, ← hk]
      exact List.mem_cons_self _ _
    · rw [lookupF, if_neg hk] at h
      exact List.mem_cons_of_mem _ (ih h)

theorem wf_jsGet {x w : Value} {k : String} (hwf : x.wfKeys = true)
    (h : x.jsGet k = .ok w) : w.wfKeys = true := by
  cases x with
  | vnull => exact Except.noConfusion h
  | undef => exact Except.noConfusion h
  | str s => rw [← Except.ok.inj h]; rfl
  | boolean b => rw [← Except.ok.inj h]; rfl
  | num n => rw [← Except.ok.inj h]; rfl
  | obj fs =>
    have hm : (match lookupF fs k with
      | some v => Except.ok v
      | none => Except.ok Value.undef) = Except.ok w := h
    cases hl : lookupF fs k with
    | none => rw [hl] at hm; rw [← Except.ok.inj hm]; rfl
    | some v =>
      rw [hl] at hm
      rw [← Except.ok.inj hm]
      exact (wfKeys_obj_iff.mp hwf).2 (k, v) (lookupF_mem hl)
  | list xs =>
    by_cases h0 : k = "0"
    · subst h0
      cases xs with
      | nil =>
        have : Except.ok Value.undef = Except.ok w := h
        rw [← Except.ok.inj this]; rfl
      | cons a rest =>
        have hm : (if ("0" : String) = "0" then Except.ok a
          else Except.ok Value.undef) = Except.ok w := h
        rw [if_pos rfl] at hm
        rw [← Except.ok.inj hm]
        exact wfKeys_list_iff.mp hwf a (List.mem_cons_self a rest)
    · have hm : (if k = "0" then _ else Except.ok Value.undef)
          = Except.ok w := h
      rw [if_neg h0] at hm
      rw [← Except.ok.inj hm]; rfl

theorem wf_getPath {x w : Value} {p : List String} (hwf : x.wfKeys = true)
    (h : x.getPath p = .ok w) : w.wfKeys = true := by
  induction p generalizing x with
  | nil =>
    simp only [getPath] at h
    rw [← Except.ok.inj h]
    exact hwf
  | cons k ks ih =>
    have hsplit : (x.jsGet k).bind (fun y => y.getPath ks) = .ok w := h
    cases hy : x.jsGet k with
    | error e => rw [hy] at hsplit; exact Except.noConfusion hsplit
    | ok y =>
      rw [hy] at hsplit
      exact ih (wf_jsGet hwf hy) hsplit

end Value

namespace Value

theorem updateFirstF_map_fst (fs : List (String × Value)) (k : String)
    (g : Value → Value) :
    (updateFirstF fs k g).map Prod.fst = fs.map Prod.fst := by
  induction fs with
  | nil => rfl
  | cons e fs ih =>
    by_cases hk : e.1 = k
    · rw [updateFirstF, if_pos hk]
      rfl
    · rw [updateFirstF, if_neg hk, List.map_cons, List.map_cons, ih]

theorem lookupF_eq_none {fs : List (String × Value)} {k : String}
    (h : k ∉ fs.map Prod.fst) : lookupF fs k = none := by
  induction fs with
  | nil => rfl
  | cons e fs ih =>
    have h1 : ¬(e.1 = k) := by
      intro he
      apply h
      rw [List.map_cons, ← he]
      exact List.mem_cons_self _ _
    have h2 : k ∉ fs.map Prod.fst := by
      intro hm
      apply h
      rw [List.map_cons]
      exact List.mem_cons_of_mem _ hm
    rw [lookupF, if_neg h1]
    exact ih h2

theorem lookupF_filter_self (fs : List (String × Value)) (w : String) :
    lookupF (fs.filter (fun e => e.1 ≠ w)) w = none := by
  induction fs with
  | nil => rfl
  | cons e fs ih =>
    rw [List.filter_cons]
    by_cases hw : e.1 = w
    · rw [if_neg (by simp [hw])]
      exact ih
    · rw [if_pos (by simp [hw]), lookupF, if_neg hw]
      exact ih

theorem jsGet_removeField_self (fs : List (String × Value)) (w : String) :
    ((Value.obj fs).removeField w).jsGet w = .ok .undef := by
  show (match lookupF (fs.filter (fun e => e.1 ≠ w)) w with
    | some v => Except.ok v
    | none => Except.ok Value.undef) = _
  rw [lookupF_filter_self]

theorem lookupF_filter_strip {fs : List (String × Value)} {k : String}
    (hnd : (fs.map Prod.fst).Nodup) :
    lookupF (fs.filter (fun e => !e.2.isNull)) k
      = (lookupF fs k).bind
          (fun v => if v.isNull then none else some v) := by
  induction fs with
  | nil => rfl
  | cons e fs ih =>
    have hnd' : (fs.map Prod.fst).Nodup := (List.nodup_cons.mp hnd).2
    have hnm : e.1 ∉ fs.map Prod.fst := (List.nodup_cons.mp hnd).1
    rw [List.filter_cons]
    by_cases hk : e.1 = k
    · by_cases hn : e.2.isNull
      · rw [if_neg (by simp [hn]), ih hnd', lookupF_eq_none (hk ▸ hnm),
          lookupF, if_pos hk]
        show (none : Option Value)
          = if e.2.isNull = true then none else some e.2
        rw [if_pos hn]
      · rw [if_pos (by simp [hn]), lookupF, if_pos hk, lookupF, if_pos hk]
        show some e.2
          = if e.2.isNull = true then none else some e.2
        rw [if_neg hn]
    · rw [lookupF, if_neg hk]
      by_cases hn : e.2.isNull
      · rw [if_neg (by simp [hn])]
        exact ih hnd'
      · rw [if_pos (by simp [hn]), lookupF, if_neg hk]
        exact ih hnd'

theorem jsGet_stripNullsIn {x : Value} (hwf : x.wfKeys = true)
    (k : String) :
    (stripNullsIn x).jsGet k = (x.jsGet k).map nullToUndef := by
  cases x with
  | vnull => rfl
  | undef => rfl
  | str s => rfl
  | boolean b => rfl
  | num n => rfl
  | obj fs =>
    have hnd : (fs.map Prod.fst).Nodup := (wfKeys_obj_iff.mp hwf).1
    show (match lookupF (fs.filter (fun e => !e.2.isNull)) k with
      | some v => Except.ok v
      | none => Except.ok Value.undef)
      = (match lookupF fs k with
          | some v => Except.ok v
          | none => Except.ok Value.undef).map nullToUndef
    rw [lookupF_filter_strip hnd]
    cases lookupF fs k with
    | none => rfl
    | some v =>
      by_cases hn : v.isNull
      · show (match (if v.isNull = true then none else some v : Option Value) with
          | some w => Except.ok w
          | none => Except.ok Value.undef) = Except.ok (nullToUndef v)
        rw [if_pos hn, nullToUndef, if_pos hn]
      · show (match (if v.isNull = true then none else some v : Option Value) with
          | some w => Except.ok w
          | none => Except.ok Value.undef) = Except.ok (nullToUndef v)
        rw [if_neg hn, nullToUndef, if_neg hn]
  | list xs =>
    by_cases h0 : k = "0"
    · subst h0
      cases xs with
      | nil => rfl
      | cons a rest =>
        show (if ("0" : String) = "0" then Except.ok (nullToUndef a)
          else Except.ok Value.undef)
          = (if ("0" : String) = "0" then Except.ok a
              else Except.ok Value.undef).map nullToUndef
        rw [if_pos rfl, if_pos rfl]
        rfl
    · show (if k = "0" then _ else Except.ok Value.undef)
        = (if k = "0" then _ else Except.ok Value.undef).map nullToUndef
      rw [if_neg h0, if_neg h0]
      rfl

theorem isNull_iff_vnull (w : Value) : w.isNull = true ↔ w = .vnull := by
  cases w <;> simp [isNull]

theorem getPath_stripNullsIn_cases {x : Value} (hwf : x.wfKeys = true)
    (k : String) (ks : List String) :
    (stripNullsIn x).getPath (k :: ks) = x.getPath (k :: ks)
    ∨ (x.getPath (k :: ks) = .ok .vnull
        ∧ (stripNullsIn x).getPath (k :: ks) = .ok .undef)
    ∨ ((∃ e, x.getPath (k :: ks) = .error e)
        ∧ ∃ e, (stripNullsIn x).getPath (k :: ks) = .error e) := by
  have hj := jsGet_stripNullsIn hwf k
  have hL : (stripNullsIn x).getPath (k :: ks)
      = ((stripNullsIn x).jsGet k).bind (fun w => w.getPath ks) := rfl
  have hR : x.getPath (k :: ks)
      = (x.jsGet k).bind (fun w => w.getPath ks) := rfl
  cases hx : x.jsGet k with
  | error e =>
    left
    rw [hL, hR, hj, hx]
    rfl
  | ok w =>
    by_cases hn : w.isNull
    · have hw : w = .vnull := (isNull_iff_vnull w).mp hn
      subst hw
      have hju : (stripNullsIn x).jsGet k = .ok .undef := by
        rw [hj, hx]
        rfl
      cases ks with
      | nil =>
        right; left
        constructor
        · rw [hR, hx]; rfl
        · rw [hL, hju]; rfl
      | cons k' ks' =>
        right; right
        constructor
        · exact ⟨"TypeError: cannot read properties of null",
            by rw [hR, hx]; rfl⟩
        · exact ⟨"TypeError: cannot read properties of undefined",
            by rw [hL, hju]; rfl⟩
    · left
      have hju : (stripNullsIn x).jsGet k = .ok w := by
        rw [hj, hx]
        show Except.ok (nullToUndef w) = _
        rw [nullToUndef, if_neg hn]
      rw [hL, hR, hju, hx]

end Value

namespace Value

theorem wf_removeField {x : Value} (hwf : x.wfKeys = true) (w : String) :
    (x.removeField w).wfKeys = true := by
  cases x with
  | obj fs =>
    obtain ⟨hnd, hall⟩ := wfKeys_obj_iff.mp hwf
    refine wfKeys_obj_iff.mpr ⟨?_, ?_⟩
    · exact List.Nodup.sublist
        (List.Sublist.map Prod.fst (List.filter_sublist fs)) hnd
    · intro e he
      exact hall e (List.mem_of_mem_filter he)
  | list xs => exact hwf
  | vnull => rfl
  | undef => rfl
  | str s => rfl
  | boolean b => rfl
  | num n => rfl

theorem wf_stripNullsIn {x : Value} (hwf : x.wfKeys = true) :
    (stripNullsIn x).wfKeys = true := by
  cases x with
  | obj fs =>
    obtain ⟨hnd, hall⟩ := wfKeys_obj_iff.mp hwf
    refine wfKeys_obj_iff.mpr ⟨?_, ?_⟩
    · exact List.Nodup.sublist
        (List.Sublist.map Prod.fst (List.filter_sublist fs)) hnd
    · intro e he
      exact hall e (List.mem_of_mem_filter he)
  | list xs =>
    refine wfKeys_list_iff.mpr ?_
    intro y hy
    obtain ⟨z, hz, rfl⟩ := List.mem_map.mp hy
    by_cases hn : z.isNull
    · rw [if_pos hn]
      rfl
    · rw [if_neg hn]
      exact wfKeys_list_iff.mp hwf z hz
  | vnull => rfl
  | undef => rfl
  | str s => rfl
  | boolean b => rfl
  | num n => rfl

theorem wf_updatePath {f : Value → Value}
    (hf : ∀ w, w.wfKeys = true → (f w).wfKeys = true)
    {x : Value} (hwf : x.wfKeys = true) (p : List String) :
    (x.updatePath p f).wfKeys = true := by
  induction p generalizing x with
  | nil =>
    simp only [updatePath]
    exact hf x hwf
  | cons k ks ih =>
    cases x with
    | obj fs =>
      obtain ⟨hnd, hall⟩ := wfKeys_obj_iff.mp hwf
      show (Value.obj (updateFirstF fs k _)).wfKeys = true
      refine wfKeys_obj_iff.mpr ⟨?_, ?_⟩
      · rw [updateFirstF_map_fst]
        exact hnd
      · intro e he
        rcases mem_updateFirstF he with h1 | ⟨e', he', rfl⟩
        · exact hall e h1
        · exact ih (hall e' he')
    | list xs =>
      simp only [updatePath]
      by_cases h0 : k = "0"
      · rw [if_pos h0]
        cases xs with
        | nil => rfl
        | cons a rest =>
          refine wfKeys_list_iff.mpr ?_
          intro y hy
          rcases List.mem_cons.mp hy with rfl | hmem
          · exact ih (wfKeys_list_iff.mp hwf a (List.mem_cons_self a rest))
          · exact wfKeys_list_iff.mp hwf y (List.mem_cons_of_mem a hmem)
      · rw [if_neg h0]
        exact hwf
    | vnull => rfl
    | undef => rfl
    | str s => rfl
    | boolean b => rfl
    | num n => rfl

theorem getPath_congr_head {a b : Value} {k : String} (ks : List String)
    (h : a.jsGet k = b.jsGet k) :
    a.getPath (k :: ks) = b.getPath (k :: ks) := by
  show (a.jsGet k).bind _ = (b.jsGet k).bind _
  rw [h]

end Value

theorem emptyToolTrig_eq (m : Value) :
    emptyToolTrig m
      = match ((m.getPath toolParentPath).bind
            (fun w => w.getPath ["tool", "0"])).bind Value.jsKeysLen with
        | .ok n => decide (n < 1)
        | .error _ => false := by
  simp only [emptyToolTrig]
  rw [Value.getPath_append]

theorem emptyToolTrig_congr_head {a b : Value}
    (h : a.jsGet "source" = b.jsGet "source") :
    emptyToolTrig a = emptyToolTrig b := by
  have hp : a.getPath (toolParentPath ++ ["tool", "0"])
      = b.getPath (toolParentPath ++ ["tool", "0"]) :=
    Value.getPath_congr_head _ h
  simp only [emptyToolTrig, hp]

theorem workerNullTrig_congr_head {a b : Value}
    (h : a.jsGet "worker" = b.jsGet "worker") :
    workerNullTrig a = workerNullTrig b := by
  have hp : a.getPath ["worker", "0", "id"] = b.getPath ["worker", "0", "id"] :=
    Value.getPath_congr_head _ h
  simp only [workerNullTrig, hp]

theorem stripAtTrig_congr_head {a b : Value} {k : String} {ks : List String}
    (h : a.jsGet k = b.jsGet k) :
    stripAtTrig a (k :: ks) = stripAtTrig b (k :: ks) := by
  have hp := Value.getPath_congr_head ks h
  simp only [stripAtTrig, hp]

theorem jsGet_stripAt_ne {m : Value} {k q1 : String} (qs : List String)
    (h : k ≠ q1) : (stripAt m (q1 :: qs)).jsGet k = m.jsGet k := by
  rw [stripAt]
  by_cases ht : stripAtTrig m (q1 :: qs)
  · rw [if_pos ht, Value.jsGet_updatePath_ne _ h]
  · rw [if_neg ht]

theorem emptyToolTrig_delEmptyTool (m : Value) :
    emptyToolTrig (delEmptyTool m) = false := by
  rw [delEmptyTool]
  by_cases ht : emptyToolTrig m
  · rw [if_pos ht]
    rw [emptyToolTrig_eq] at ht
    cases hp : m.getPath toolParentPath with
    | error e =>
      rw [hp] at ht
      exact Bool.noConfusion ht
    | ok parent =>
      rw [hp] at ht
      cases parent with
      | vnull => exact Bool.noConfusion ht
      | undef => exact Bool.noConfusion ht
      | str s => exact Bool.noConfusion ht
      | boolean b => exact Bool.noConfusion ht
      | num n => exact Bool.noConfusion ht
      | list xs => exact Bool.noConfusion ht
      | obj fs =>
        have hup := Value.getPath_updatePath_self
          (fun p => p.removeField "tool") hp
          (fun hh => Value.noConfusion hh)
        have hfin : ((Value.obj fs).removeField "tool").getPath ["tool", "0"]
            = .error "TypeError: cannot read properties of undefined" := by
          show (((Value.obj fs).removeField "tool").jsGet "tool").bind _ = _
          rw [Value.jsGet_removeField_self]
          rfl
        rw [emptyToolTrig_eq, hup]
        show (match (((Value.obj fs).removeField "tool").getPath
            ["tool", "0"]).bind Value.jsKeysLen with
          | .ok n => decide (n < 1)
          | .error _ => false) = false
        rw [hfin]
        rfl
  · rw [if_neg ht]
    exact Bool.eq_false_iff.mpr ht

theorem workerNullTrig_delNullWorker (m : Value) :
    workerNullTrig (delNullWorker m) = false := by
  rw [delNullWorker]
  by_cases ht : workerNullTrig m
  · rw [if_pos ht]
    simp only [workerNullTrig] at ht
    cases m with
    | vnull => exact Bool.noConfusion ht
    | undef => exact Bool.noConfusion ht
    | str s => exact Bool.noConfusion ht
    | boolean b => exact Bool.noConfusion ht
    | num n => exact Bool.noConfusion ht
    | list xs => exact Bool.noConfusion ht
    | obj fs =>
      simp only [workerNullTrig]
      have hfin : ((Value.obj fs).removeField "worker").getPath
          ["worker", "0", "id"]
          = .error "TypeError: cannot read properties of undefined" := by
        show (((Value.obj fs).removeField "worker").jsGet "worker").bind _ = _
        rw [Value.jsGet_removeField_self]
        rfl
      rw [hfin]
  · rw [if_neg ht]
    exact Bool.eq_false_iff.mpr ht

theorem emptyToolTrig_removeField_worker (m : Value) :
    emptyToolTrig (m.removeField "worker") = emptyToolTrig m :=
  emptyToolTrig_congr_head (Value.jsGet_removeField (by decide))

theorem emptyToolTrig_delNullWorker_eq (m : Value) :
    emptyToolTrig (delNullWorker m) = emptyToolTrig m := by
  rw [delNullWorker]
  by_cases ht : workerNullTrig m
  · rw [if_pos ht]
    exact emptyToolTrig_removeField_worker m
  · rw [if_neg ht]

theorem emptyToolTrig_stripNullsIn {m : Value} (hwf : m.wfKeys = true)
    (h : emptyToolTrig m = false) :
    emptyToolTrig (stripNullsIn m) = false := by
  have hP : toolParentPath ++ ["tool", "0"]
      = "source" :: ["0", "properties", "0", "tool", "0"] := rfl
  rcases Value.getPath_stripNullsIn_cases hwf "source"
      ["0", "properties", "0", "tool", "0"] with
    heq | ⟨h1, h2⟩ | ⟨⟨e1, h1⟩, ⟨e2, h2⟩⟩
  · have hc : emptyToolTrig (stripNullsIn m) = emptyToolTrig m := by
      simp only [emptyToolTrig]
      rw [hP, heq]
    rw [hc]
    exact h
  · simp only [emptyToolTrig]
    rw [hP, h2]
    rfl
  · simp only [emptyToolTrig]
    rw [hP, h2]
    rfl

theorem workerNullTrig_stripNullsIn {m : Value} (hwf : m.wfKeys = true)
    (h : workerNullTrig m = false) :
    workerNullTrig (stripNullsIn m) = false := by
  rcases Value.getPath_stripNullsIn_cases hwf "worker" ["0", "id"] with
    heq | ⟨h1, h2⟩ | ⟨⟨e1, h1⟩, ⟨e2, h2⟩⟩
  · have hc : workerNullTrig (stripNullsIn m) = workerNullTrig m := by
      simp only [workerNullTrig]
      rw [heq]
    rw [hc]
    exact h
  · simp only [workerNullTrig] at h
    rw [h1] at h
    exact Bool.noConfusion h
  · simp only [workerNullTrig]
    rw [h2]

theorem emptyToolTrig_stripAt_params (m : Value) :
    emptyToolTrig (stripAt m paramsPath) = emptyToolTrig m :=
  emptyToolTrig_congr_head (jsGet_stripAt_ne _ (by decide))

theorem workerNullTrig_stripAt_params (m : Value) :
    workerNullTrig (stripAt m paramsPath) = workerNullTrig m :=
  workerNullTrig_congr_head (jsGet_stripAt_ne _ (by decide))

theorem workerNullTrig_stripAt_toolParent (m : Value) :
    workerNullTrig (stripAt m toolParentPath) = workerNullTrig m :=
  workerNullTrig_congr_head (jsGet_stripAt_ne _ (by decide))

theorem emptyToolTrig_stripAt_toolParent {m : Value} (hwf : m.wfKeys = true)
    (h : emptyToolTrig m = false) :
    emptyToolTrig (stripAt m toolParentPath) = false := by
  rw [stripAt]
  by_cases ht : stripAtTrig m toolParentPath
  · rw [if_pos ht]
    simp only [stripAtTrig] at ht
    cases hp : m.getPath toolParentPath with
    | error e =>
      rw [hp] at ht
      exact Bool.noConfusion ht
    | ok parent =>
      rw [hp] at ht
      have hpu : parent ≠ Value.undef := by
        rintro rfl
        exact Bool.noConfusion ht
      have hwp : parent.wfKeys = true := Value.wf_getPath hwf hp
      have hup := Value.getPath_updatePath_self stripNullsIn hp hpu
      have hgoal : emptyToolTrig (m.updatePath toolParentPath stripNullsIn)
          = match ((stripNullsIn parent).getPath ["tool", "0"]).bind
              Value.jsKeysLen with
            | .ok n => decide (n < 1)
            | .error _ => false := by
        rw [emptyToolTrig_eq, hup]
        rfl
      have hm : emptyToolTrig m
          = match (parent.getPath ["tool", "0"]).bind Value.jsKeysLen with
            | .ok n => decide (n < 1)
            | .error _ => false := by
        rw [emptyToolTrig_eq, hp]
        rfl
      rw [hgoal]
      rw [hm] at h
      rcases Value.getPath_stripNullsIn_cases hwp "tool" ["0"] with
        heq | ⟨h1, h2⟩ | ⟨⟨e1, h1⟩, ⟨e2, h2⟩⟩
      · rw [heq]
        exact h
      · rw [h2]
        rfl
      · rw [h2]
        rfl
  · rw [if_neg ht]
    exact h

theorem stripTop_ok_iff {x y : Value} :
    stripTop x = .ok y ↔ x.isNU = false ∧ y = stripNullsIn x := by
  cases x <;> first
  | exact ⟨fun h => Except.noConfusion h, fun h => Bool.noConfusion h.1⟩
  | exact ⟨fun h => ⟨rfl, (Except.ok.inj h).symm⟩, fun h => by rw [h.2]; rfl⟩

theorem stripAt_stripAt (x : Value) (p : List String) :
    stripAt (stripAt x p) p = stripAt x p := by
  by_cases ht : stripAtTrig x p
  · have hin : stripAt x p = x.updatePath p stripNullsIn := by
      rw [stripAt, if_pos ht]
    rw [hin]
    by_cases ht2 : stripAtTrig (x.updatePath p stripNullsIn) p
    · rw [stripAt, if_pos ht2]
      exact Value.updatePath_updatePath Value.stripNullsIn_idem
    · rw [stripAt, if_neg ht2]
  · have hin : stripAt x p = x := by
      rw [stripAt, if_neg ht]
    rw [hin]
    exact hin

theorem stripAt_fix_stripAt_ne {x : Value} {p1 q1 : String}
    {ps qs : List String} (hne : p1 ≠ q1)
    (hfix : stripAt x (p1 :: ps) = x) :
    stripAt (stripAt x (q1 :: qs)) (p1 :: ps) = stripAt x (q1 :: qs) := by
  by_cases ht : stripAtTrig x (q1 :: qs)
  · have hq : stripAt x (q1 :: qs) = x.updatePath (q1 :: qs) stripNullsIn := by
      rw [stripAt, if_pos ht]
    rw [hq]
    have htr : stripAtTrig (x.updatePath (q1 :: qs) stripNullsIn) (p1 :: ps)
        = stripAtTrig x (p1 :: ps) :=
      stripAtTrig_congr_head (Value.jsGet_updatePath_ne _ hne)
    by_cases h1 : stripAtTrig x (p1 :: ps)
    · have hfx : x.updatePath (p1 :: ps) stripNullsIn = x := by
        rw [stripAt, if_pos h1] at hfix
        exact hfix
      rw [stripAt, htr, if_pos h1]
      rw [Value.updatePath_comm_ne _ _ hne, hfx]
    · rw [stripAt, htr, if_neg h1]
  · have hq : stripAt x (q1 :: qs) = x := by
      rw [stripAt, if_neg ht]
    rw [hq]
    exact hfix

theorem isNU_stripAt (m : Value) (k : String) (ks : List String) :
    (stripAt m (k :: ks)).isNU = m.isNU := by
  rw [stripAt]
  by_cases ht : stripAtTrig m (k :: ks)
  · rw [if_pos ht]
    exact Value.isNU_updatePath m k ks stripNullsIn
  · rw [if_neg ht]

theorem noTopNulls_stripAt {m : Value} (k : String) (ks : List String)
    (h : noTopNulls m) : noTopNulls (stripAt m (k :: ks)) := by
  rw [stripAt]
  by_cases ht : stripAtTrig m (k :: ks)
  · rw [if_pos ht]
    exact Value.noTopNulls_updatePath Value.isNull_stripNullsIn h
  · rw [if_neg ht]
    exact h

theorem wf_stripAt {m : Value} (hwf : m.wfKeys = true) (p : List String) :
    (stripAt m p).wfKeys = true := by
  rw [stripAt]
  by_cases ht : stripAtTrig m p
  · rw [if_pos ht]
    exact Value.wf_updatePath (fun w hw => Value.wf_stripNullsIn hw) hwf p
  · rw [if_neg ht]
    exact hwf

theorem wf_delEmptyTool {m : Value} (hwf : m.wfKeys = true) :
    (delEmptyTool m).wfKeys = true := by
  rw [delEmptyTool]
  by_cases ht : emptyToolTrig m
  · rw [if_pos ht]
    exact Value.wf_updatePath (fun w hw => Value.wf_removeField hw "tool")
      hwf _
  · rw [if_neg ht]
    exact hwf

theorem wf_delNullWorker {m : Value} (hwf : m.wfKeys = true) :
    (delNullWorker m).wfKeys = true := by
  rw [delNullWorker]
  by_cases ht : workerNullTrig m
  · rw [if_pos ht]
    exact Value.wf_removeField hwf "worker"
  · rw [if_neg ht]
    exact hwf

theorem normalizeBody_rewrap {v m : Value} (hwf : v.wfKeys = true)
    (h : normalizeBody v = .ok m) :
    normalizeBody (Value.list [m]) = .ok m := by
  simp only [normalizeBody] at h
  cases h0 : v.jsGet "0" with
  | error e =>
    rw [h0] at h
    exact Except.noConfusion h
  | ok m0 =>
    rw [h0] at h
    replace h : (match stripTop (delNullWorker (delEmptyTool m0)) with
      | .error e => (Except.error e : Except String Value)
      | .ok m3 => Except.ok (stripAt (stripAt m3 paramsPath) toolParentPath))
        = Except.ok m := h
    cases h3 : stripTop (delNullWorker (delEmptyTool m0)) with
    | error e =>
      rw [h3] at h
      exact Except.noConfusion h
    | ok m3 =>
      rw [h3] at h
      replace h : Except.ok (stripAt (stripAt m3 paramsPath) toolParentPath)
          = Except.ok m := h
      have hm : m = stripAt (stripAt m3 paramsPath) toolParentPath :=
        (Except.ok.inj h).symm
      have hwf0 : m0.wfKeys = true := Value.wf_jsGet hwf h0
      have hwf1 : (delEmptyTool m0).wfKeys = true := wf_delEmptyTool hwf0
      have hwf2 : (delNullWorker (delEmptyTool m0)).wfKeys = true :=
        wf_delNullWorker hwf1
      obtain ⟨hnu2, hm3⟩ := stripTop_ok_iff.mp h3
      have hwf3 : m3.wfKeys = true := by
        rw [hm3]
        exact Value.wf_stripNullsIn hwf2
      have hwf4 : (stripAt m3 paramsPath).wfKeys = true := wf_stripAt hwf3 _
      have he2 : emptyToolTrig (delNullWorker (delEmptyTool m0)) = false :=
        (emptyToolTrig_delNullWorker_eq _).trans (emptyToolTrig_delEmptyTool m0)
      have he3 : emptyToolTrig m3 = false := by
        rw [hm3]
        exact emptyToolTrig_stripNullsIn hwf2 he2
      have he4 : emptyToolTrig (stripAt m3 paramsPath) = false :=
        (emptyToolTrig_stripAt_params m3).trans he3
      have he5 : emptyToolTrig m = false := by
        rw [hm]
        exact emptyToolTrig_stripAt_toolParent hwf4 he4
      have hw2 : workerNullTrig (delNullWorker (delEmptyTool m0)) = false :=
        workerNullTrig_delNullWorker _
      have hw3 : workerNullTrig m3 = false := by
        rw [hm3]
        exact workerNullTrig_stripNullsIn hwf2 hw2
      have hw4 : workerNullTrig (stripAt m3 paramsPath) = false :=
        (workerNullTrig_stripAt_params m3).trans hw3
      have hw5 : workerNullTrig m = false := by
        rw [hm]
        exact (workerNullTrig_stripAt_toolParent _).trans hw4
      have hnu : m.isNU = false := by
        rw [hm]
        have i1 : (stripAt (stripAt m3 paramsPath) toolParentPath).isNU
            = (stripAt m3 paramsPath).isNU := isNU_stripAt _ _ _
        have i2 : (stripAt m3 paramsPath).isNU = m3.isNU := isNU_stripAt _ _ _
        rw [i1, i2, hm3, Value.isNU_stripNullsIn]
        exact hnu2
      have hnn : noTopNulls m := by
        rw [hm]
        have base : noTopNulls m3 := by
          rw [hm3]
          exact Value.noTopNulls_stripNullsIn _
        exact noTopNulls_stripAt _ _ (noTopNulls_stripAt _ _ base)
      have hstm : stripTop m = .ok m :=
        stripTop_ok_iff.mpr ⟨hnu, (Value.noTopNulls_of_strip_self hnn).symm⟩
      have hfixP : stripAt m paramsPath = m := by
        rw [hm]
        exact stripAt_fix_stripAt_ne (by decide) (stripAt_stripAt m3 paramsPath)
      have hfixTP : stripAt m toolParentPath = m := by
        rw [hm]
        exact stripAt_stripAt _ _
      have hde : delEmptyTool m = m := by
        rw [delEmptyTool, if_neg (fun hh => Bool.noConfusion (he5 ▸ hh))]
      have hdw : delNullWorker m = m := by
        rw [delNullWorker, if_neg (fun hh => Bool.noConfusion (hw5 ▸ hh))]
      simp only [normalizeBody]
      show (match stripTop (delNullWorker (delEmptyTool m)) with
        | .error e => (Except.error e : Except String Value)
        | .ok m3 => Except.ok (stripAt (stripAt m3 paramsPath) toolParentPath))
          = Except.ok m
      rw [hde, hdw, hstm]
      show Except.ok (stripAt (stripAt m paramsPath) toolParentPath)
          = Except.ok m
      rw [hfixP, hfixTP]

theorem normalizeResList_rewrap {rs rs' : List (String × Value)}
    (hwf : rs.all (fun r => r.2.wfKeys) = true)
    (h : normalizeResList rs = .ok rs') :
    normalizeResList (rs'.map (fun r => (r.1, Value.list [r.2]))) = .ok rs' := by
  induction rs generalizing rs' with
  | nil =>
    obtain rfl : rs' = [] := (Except.ok.inj h).symm
    rfl
  | cons r rs ih =>
    simp only [normalizeResList] at h
    cases hb : normalizeBody r.2 with
    | error e =>
      rw [hb] at h
      exact Except.noConfusion h
    | ok b' =>
      rw [hb] at h
      replace h : (match normalizeResList rs with
        | .error e => (Except.error e : Except String (List (String × Value)))
        | .ok rest' => Except.ok ((r.1, b') :: rest')) = Except.ok rs' := h
      cases hr : normalizeResList rs with
      | error e =>
        rw [hr] at h
        exact Except.noConfusion h
      | ok rest' =>
        rw [hr] at h
        replace h : Except.ok ((r.1, b') :: rest') = Except.ok rs' := h
        obtain rfl : rs' = (r.1, b') :: rest' := (Except.ok.inj h).symm
        rw [List.all_cons, Bool.and_eq_true] at hwf
        have hb2 : normalizeBody (Value.list [b']) = .ok b' :=
          normalizeBody_rewrap hwf.1 hb
        have ih2 := ih hwf.2 hr
        show (match normalizeBody (Value.list [b']) with
          | .error e => (Except.error e : Except String (List (String × Value)))
          | .ok b'' =>
            match normalizeResList
                (rest'.map (fun r => (r.1, Value.list [r.2]))) with
            | .error e => Except.error e
            | .ok rest'' => Except.ok ((r.1, b'') :: rest''))
          = Except.ok ((r.1, b') :: rest')
        rw [hb2]
        show (match normalizeResList
            (rest'.map (fun r => (r.1, Value.list [r.2]))) with
          | .error e => (Except.error e : Except String (List (String × Value)))
          | .ok rest'' => Except.ok ((r.1, b') :: rest''))
          = Except.ok ((r.1, b') :: rest')
        rw [ih2]

/-- C6 (amended): re-running the per-resource normalization is a no-op
once its output is re-wrapped in the one-element arrays the HCL→JSON
codec produces (the form the pass actually consumes): for every
JavaScript-representable document (duplicate-free object keys), if
`normalizeDoc d` succeeds with `d'`, then normalizing the re-wrapped
`d'` succeeds and returns `d'` unchanged. -/
theorem normalizeDoc_rewrap_idempotent {d d' : TfDoc} (hwf : wfDoc d = true)
    (h : normalizeDoc d = .ok d') :
    normalizeDoc (rewrapDoc d') = .ok d' := by
  induction d generalizing d' with
  | nil =>
    obtain rfl : d' = [] := (Except.ok.inj h).symm
    rfl
  | cons tr rest ih =>
    simp only [normalizeDoc] at h
    cases hr : normalizeResList tr.2 with
    | error e =>
      rw [hr] at h
      exact Except.noConfusion h
    | ok rs' =>
      rw [hr] at h
      replace h : (match normalizeDoc rest with
        | .error e => (Except.error e : Except String TfDoc)
        | .ok rest' => Except.ok ((tr.1, rs') :: rest')) = Except.ok d' := h
      cases hd : normalizeDoc rest with
      | error e =>
        rw [hd] at h
        exact Except.noConfusion h
      | ok rest' =>
        rw [hd] at h
        replace h : Except.ok ((tr.1, rs') :: rest') = Except.ok d' := h
        obtain rfl : d' = (tr.1, rs') :: rest' := (Except.ok.inj h).symm
        rw [wfDoc, List.all_cons, Bool.and_eq_true] at hwf
        have h1 := normalizeResList_rewrap hwf.1 hr
        have h2 := ih (by rw [wfDoc]; exact hwf.2) hd
        show (match normalizeResList
            (rs'.map (fun r => (r.1, Value.list [r.2]))) with
          | .error e => (Except.error e : Except String TfDoc)
          | .ok rs'' =>
            match normalizeDoc (rewrapDoc rest') with
            | .error e => Except.error e
            | .ok rest'' => Except.ok ((tr.1, rs'') :: rest''))
          = Except.ok ((tr.1, rs') :: rest')
        rw [h1]
        show (match normalizeDoc (rewrapDoc rest') with
          | .error e => (Except.error e : Except String TfDoc)
          | .ok rest'' => Except.ok ((tr.1, rs') :: rest''))
          = Except.ok ((tr.1, rs') :: rest')
        rw [h2]

/-- C6 (counterexample): normalization is not literally idempotent.  The
pass's first step consumes the one-element wrapper (`v[0]`), so on its
own output — where bodies are no longer wrapped — reading index `0` of a
plain map yields `undefined` and the unguarded `Object.entries` call
throws: composing `normalizeDoc` with itself differs from a single run on
the concrete document `[("t", [("r", [⟦⟧])])]`. -/
theorem normalizeDoc_not_idempotent :
    (normalizeDoc [("t", [("r", Value.list [Value.obj []])])]).bind
        normalizeDoc
      ≠ normalizeDoc [("t", [("r", Value.list [Value.obj []])])] := by
  intro h
  have h2 : (normalizeDoc [("t", [("r", Value.list [Value.obj []])])]).bind
      normalizeDoc
      = (.error "TypeError: Object.entries called on undefined"
          : Except String TfDoc) := rfl
  have h1 : normalizeDoc [("t", [("r", Value.list [Value.obj []])])]
      = .ok [("t", [("r", Value.obj [])])] := rfl
  rw [h2, h1] at h
  exact Except.noConfusion h

/-- C6 witness: the amended theorem at a concrete document containing a
`null`-valued field that the first run strips. -/
theorem normalizeDoc_rewrap_idempotent_witness :
    wfDoc [("t", [("r", Value.list [Value.obj [("a", Value.vnull)]])])] = true
    ∧ normalizeDoc (rewrapDoc [("t", [("r", Value.obj [])])])
        = .ok [("t", [("r", Value.obj [])])] :=
  ⟨rfl, @normalizeDoc_rewrap_idempotent
    [("t", [("r", Value.list [Value.obj [("a", Value.vnull)]])])]
    [("t", [("r", Value.obj [])])] rfl rfl⟩


/-- In a duplicate-free list, an element at the split point occurs
strictly before everything in the right part. -/
theorem occursBefore_of_split {L A B : List ImportDirective}
    {x y : ImportDirective} (hL : L = A ++ x :: B) (hnd : L.Nodup)
    (hy : y ∈ B) : OccursBefore L x y := by
  subst hL
  have hx0 : (A ++ x :: B)[A.length]? = some x := by
    rw [List.getElem?_append_right (le_refl A.length)]
    simp
  obtain ⟨j₀, hj₀⟩ := List.mem_iff_getElem?.mp hy
  have hy0 : (A ++ x :: B)[A.length + 1 + j₀]? = some y := by
    rw [List.getElem?_append_right (by omega)]
    rw [show A.length + 1 + j₀ - A.length = j₀ + 1 by omega]
    simpa using hj₀
  have hxlen : A.length < (A ++ x :: B).length := by
    simp
  have hylen : A.length + 1 + j₀ < (A ++ x :: B).length := by
    have : j₀ < B.length := by
      by_contra hc
      rw [List.getElem?_eq_none (by omega)] at hj₀
      exact Option.noConfusion hj₀
    simp
    omega
  refine ⟨⟨A.length, hx0⟩, ⟨A.length + 1 + j₀, hy0⟩, ?_⟩
  intro i j hi hj
  have hieq : i = A.length := by
    have hil : i < (A ++ x :: B).length := by
      by_contra hc
      rw [List.getElem?_eq_none (by omega)] at hi
      exact Option.noConfusion hi
    exact List.getElem?_inj hil hnd (by rw [hi, hx0])
  have hjeq : j = A.length + 1 + j₀ := by
    have hjl : j < (A ++ x :: B).length := by
      by_contra hc
      rw [List.getElem?_eq_none (by omega)] at hj
      exact Option.noConfusion hj
    exact List.getElem?_inj hjl hnd (by rw [hj, hy0])
  omega

/-- C1: in the import-directive list built by `importTerraform`, the
toolchain directive is first; for every tekton-pipeline tool the
pipeline directive occurs strictly before every one of that pipeline's
child directives (definitions, pipeline properties, triggers and
trigger properties); each trigger directive occurs strictly before all
of that trigger's own property directives; and each trigger's property
directives occur strictly before every later trigger's directive, so no
trigger directive stands before another trigger's properties within its
own section.  The `Nodup` hypothesis reflects the uniqueness of the
live external ids the importer walks. -/
theorem import_directive_order (tcId : String) (tools : List ToolBinding)
    (hnd : (importTerraformDirectives tcId tools).Nodup) :
    (importTerraformDirectives tcId tools).head?
        = some ⟨tcId, "ibm_cd_toolchain"⟩
    ∧ ∀ t ∈ tools, t.tool_type_id = "pipeline" →
        t.paramType = some "tekton" → ∀ pd, t.pipeline = some pd →
      (∀ d ∈ (pipelineDirectives pd).tail,
        OccursBefore (importTerraformDirectives tcId tools)
          ⟨pd.id, "ibm_cd_tekton_pipeline"⟩ d)
      ∧ (∀ tr ∈ pd.triggers, ∀ d ∈ (triggerDirectives pd tr).tail,
          OccursBefore (importTerraformDirectives tcId tools)
            ⟨pd.id ++ "/" ++ tr.id, "ibm_cd_tekton_pipeline_trigger"⟩ d)
      ∧ (∀ (i j : Nat) (hi : i < pd.triggers.length)
           (hj : j < pd.triggers.length), i < j →
          ∀ d ∈ (triggerDirectives pd pd.triggers[i]).tail,
            OccursBefore (importTerraformDirectives tcId tools) d
              ⟨pd.id ++ "/" ++ (pd.triggers[j]).id,
               "ibm_cd_tekton_pipeline_trigger"⟩) := by
  refine ⟨rfl, ?_⟩
  intro t ht htype htekton pd hpd
  obtain ⟨ts₁, ts₂, rfl⟩ := List.append_of_mem ht
  have htd : toolDirectives tcId t
      = ⟨tcId ++ "/" ++ t.id, "ibm_cd_toolchain_tool_pipeline"⟩ ::
        pipelineDirectives pd := by
    simp only [toolDirectives]
    rw [htype, htekton, hpd]
    rfl
  have hLbase : importTerraformDirectives tcId (ts₁ ++ t :: ts₂)
      = ⟨tcId, "ibm_cd_toolchain"⟩ ::
        (ts₁.flatMap (toolDirectives tcId)
          ++ ⟨tcId ++ "/" ++ t.id, "ibm_cd_toolchain_tool_pipeline"⟩ ::
            (pipelineDirectives pd
              ++ ts₂.flatMap (toolDirectives tcId))) := by
    simp only [importTerraformDirectives, List.flatMap_append,
      List.flatMap_cons, htd]
    simp [List.append_assoc]
  refine ⟨?_, ?_, ?_⟩
  · -- pipeline directive before all of the pipeline's child directives
    intro d hd
    refine occursBefore_of_split
      (A := ⟨tcId, "ibm_cd_toolchain"⟩ ::
        (ts₁.flatMap (toolDirectives tcId)
          ++ [⟨tcId ++ "/" ++ t.id, "ibm_cd_toolchain_tool_pipeline"⟩]))
      (B := (pipelineDirectives pd).tail
          ++ ts₂.flatMap (toolDirectives tcId)) ?_ hnd
      (List.mem_append_left _ hd)
    rw [hLbase, show pipelineDirectives pd
        = ⟨pd.id, "ibm_cd_tekton_pipeline"⟩ :: (pipelineDirectives pd).tail
        from rfl]
    simp [List.append_assoc]
  · -- each trigger directive before its own property directives
    intro tr htr d hd
    obtain ⟨u, w, hw⟩ := List.append_of_mem htr
    refine occursBefore_of_split
      (A := ⟨tcId, "ibm_cd_toolchain"⟩ ::
        (ts₁.flatMap (toolDirectives tcId)
          ++ ⟨tcId ++ "/" ++ t.id, "ibm_cd_toolchain_tool_pipeline"⟩ ::
          ⟨pd.id, "ibm_cd_tekton_pipeline"⟩ ::
            (pd.definitions.map (fun dn =>
              ⟨pd.id ++ "/" ++ dn.id, "ibm_cd_tekton_pipeline_definition"⟩)
              ++ pd.properties.map (fun p =>
                ⟨pd.id ++ "/" ++ p.name, "ibm_cd_tekton_pipeline_property"⟩)
              ++ u.flatMap (triggerDirectives pd))))
      (B := (triggerDirectives pd tr).tail
          ++ (w.flatMap (triggerDirectives pd)
            ++ ts₂.flatMap (toolDirectives tcId))) ?_ hnd
      (List.mem_append_left _ hd)
    rw [hLbase]
    conv_lhs =>
      rw [show pipelineDirectives pd
          = ⟨pd.id, "ibm_cd_tekton_pipeline"⟩ ::
            (pd.definitions.map (fun dn =>
              ⟨pd.id ++ "/" ++ dn.id, "ibm_cd_tekton_pipeline_definition"⟩)
              ++ pd.properties.map (fun p =>
                ⟨pd.id ++ "/" ++ p.name, "ibm_cd_tekton_pipeline_property"⟩)
              ++ pd.triggers.flatMap (triggerDirectives pd)) from rfl,
        hw]
    rw [List.flatMap_append, List.flatMap_cons,
      show triggerDirectives pd tr
        = ⟨pd.id ++ "/" ++ tr.id, "ibm_cd_tekton_pipeline_trigger"⟩ ::
          (triggerDirectives pd tr).tail from rfl]
    simp [List.append_assoc]
  · -- properties of an earlier trigger before every later trigger
    intro i j hi hj hij d hd
    have hsplit2 : pd.triggers
        = pd.triggers.take i
          ++ pd.triggers[i] :: pd.triggers.drop (i + 1) := by
      conv_lhs => rw [← List.take_append_drop i pd.triggers]
      rw [List.drop_eq_getElem_cons hi]
    have htrj : pd.triggers[j] ∈ pd.triggers.drop (i + 1) := by
      refine List.mem_iff_getElem?.mpr ⟨j - (i + 1), ?_⟩
      rw [List.getElem?_drop, show i + 1 + (j - (i + 1)) = j by omega]
      exact List.getElem?_eq_getElem hj
    obtain ⟨a, b, hab⟩ := List.append_of_mem hd
    refine occursBefore_of_split
      (A := ⟨tcId, "ibm_cd_toolchain"⟩ ::
        (ts₁.flatMap (toolDirectives tcId)
          ++ ⟨tcId ++ "/" ++ t.id, "ibm_cd_toolchain_tool_pipeline"⟩ ::
          ⟨pd.id, "ibm_cd_tekton_pipeline"⟩ ::
            (pd.definitions.map (fun dn =>
              ⟨pd.id ++ "/" ++ dn.id, "ibm_cd_tekton_pipeline_definition"⟩)
              ++ pd.properties.map (fun p =>
                ⟨pd.id ++ "/" ++ p.name, "ibm_cd_tekton_pipeline_property"⟩)
              ++ ((pd.triggers.take i).flatMap (triggerDirectives pd)
                ++ ⟨pd.id ++ "/" ++ (pd.triggers[i]).id,
                    "ibm_cd_tekton_pipeline_trigger"⟩ :: a))))
      (B := b ++ ((pd.triggers.drop (i + 1)).flatMap (triggerDirectives pd)
          ++ ts₂.flatMap (toolDirectives tcId))) ?_ hnd ?_
    · rw [hLbase]
      conv_lhs =>
        rw [show pipelineDirectives pd
            = ⟨pd.id, "ibm_cd_tekton_pipeline"⟩ ::
              (pd.definitions.map (fun dn =>
                ⟨pd.id ++ "/" ++ dn.id, "ibm_cd_tekton_pipeline_definition"⟩)
                ++ pd.properties.map (fun p =>
                  ⟨pd.id ++ "/" ++ p.name, "ibm_cd_tekton_pipeline_property"⟩)
                ++ pd.triggers.flatMap (triggerDirectives pd)) from rfl,
          hsplit2]
      rw [List.flatMap_append, List.flatMap_cons,
        show triggerDirectives pd pd.triggers[i]
          = ⟨pd.id ++ "/" ++ (pd.triggers[i]).id,
              "ibm_cd_tekton_pipeline_trigger"⟩ ::
            (triggerDirectives pd pd.triggers[i]).tail from rfl,
        hab]
      simp [List.append_assoc]
    · refine List.mem_append_right _ (List.mem_append_left _ ?_)
      exact List.mem_flatMap.mpr
        ⟨pd.triggers[j], htrj, by simp [triggerDirectives]⟩

/-- C1 witness: a toolchain with one tekton pipeline carrying one
definition, one pipeline property, and two triggers with one property
each; all external ids distinct, so the directive list is
duplicate-free and every ordering conclusion holds. -/
theorem import_directive_order_witness :
    (importTerraformDirectives "tc1"
        [⟨"tool1", "pipeline", some "tekton",
          some ⟨"p1", [⟨"d1"⟩], [⟨"e1"⟩],
            [⟨"t1", "trig1", [⟨"q1"⟩]⟩, ⟨"t2", "trig2", [⟨"q2"⟩]⟩]⟩⟩]).Nodup
    ∧ ((importTerraformDirectives "tc1"
        [⟨"tool1", "pipeline", some "tekton",
          some ⟨"p1", [⟨"d1"⟩], [⟨"e1"⟩],
            [⟨"t1", "trig1", [⟨"q1"⟩]⟩, ⟨"t2", "trig2", [⟨"q2"⟩]⟩]⟩⟩]).head?
        = some ⟨"tc1", "ibm_cd_toolchain"⟩
      ∧ ∀ t ∈ [(⟨"tool1", "pipeline", some "tekton",
          some ⟨"p1", [⟨"d1"⟩], [⟨"e1"⟩],
            [⟨"t1", "trig1", [⟨"q1"⟩]⟩, ⟨"t2", "trig2", [⟨"q2"⟩]⟩]⟩⟩ :
              ToolBinding)], t.tool_type_id = "pipeline" →
          t.paramType = some "tekton" → ∀ pd, t.pipeline = some pd →
        (∀ d ∈ (pipelineDirectives pd).tail,
          OccursBefore (importTerraformDirectives "tc1"
            [⟨"tool1", "pipeline", some "tekton",
              some ⟨"p1", [⟨"d1"⟩], [⟨"e1"⟩],
                [⟨"t1", "trig1", [⟨"q1"⟩]⟩, ⟨"t2", "trig2", [⟨"q2"⟩]⟩]⟩⟩])
            ⟨pd.id, "ibm_cd_tekton_pipeline"⟩ d)
        ∧ (∀ tr ∈ pd.triggers, ∀ d ∈ (triggerDirectives pd tr).tail,
            OccursBefore (importTerraformDirectives "tc1"
              [⟨"tool1", "pipeline", some "tekton",
                some ⟨"p1", [⟨"d1"⟩], [⟨"e1"⟩],
                  [⟨"t1", "trig1", [⟨"q1"⟩]⟩, ⟨"t2", "trig2", [⟨"q2"⟩]⟩]⟩⟩])
              ⟨pd.id ++ "/" ++ tr.id, "ibm_cd_tekton_pipeline_trigger"⟩ d)
        ∧ (∀ (i j : Nat) (hi : i < pd.triggers.length)
             (hj : j < pd.triggers.length), i < j →
            ∀ d ∈ (triggerDirectives pd pd.triggers[i]).tail,
              OccursBefore (importTerraformDirectives "tc1"
                [⟨"tool1", "pipeline", some "tekton",
                  some ⟨"p1", [⟨"d1"⟩], [⟨"e1"⟩],
                    [⟨"t1", "trig1", [⟨"q1"⟩]⟩,
                     ⟨"t2", "trig2", [⟨"q2"⟩]⟩]⟩⟩]) d
                ⟨pd.id ++ "/" ++ (pd.triggers[j]).id,
                 "ibm_cd_tekton_pipeline_trigger"⟩)) :=
  ⟨by decide, import_directive_order "tc1" _ (by decide)⟩

/-- C9 witness: the amended theorem at a concrete body with
`tags = ["a"]` and target tag `"t"`. -/
theorem addTargetTag_appends_dedup_witness :
    (addTargetTag "t" (.obj [("tags", .list [.str "a"])])).jsGet "tags"
        = .ok (.list [.list (dedupJS ([Value.str "a"] ++ [.str "t"]))])
    ∧ (∀ w, w ∈ dedupJS ([Value.str "a"] ++ [.str "t"])
        ↔ (w ∈ [Value.str "a"] ∨ w = .str "t"))
    ∧ (dedupJS ([Value.str "a"] ++ [.str "t"])).Nodup :=
  addTargetTag_appends_dedup "t" [("tags", .list [.str "a"])] [.str "a"]
    (Or.inl rfl) (by intro x hx; simp at hx; exact ⟨"a", hx⟩)

end CdTools
